import Mathlib

/-!
Verification of the nomadly file-upload core: the file parser
(`EnhancedFileParser` / `FileParser`) and the metadata extractor
(`MetadataExtractor.ts`, `FieldMatcher.ts`), shallowly embedded in Lean.

Strings are modelled as `List Char`; JavaScript numbers that matter to the
properties here are integers or exact decimal constants, modelled as `Int`/`ℚ`.
-/

namespace Nomadly

/-- Strings are modelled as lists of characters. -/
abbrev Str := List Char

/-- JavaScript `\s` (the ASCII part; the properties proved here do not depend
on the Unicode extras). -/
def isWs (c : Char) : Bool :=
  c = ' ' || c = '\t' || c = '\n' || c = '\r' || c = '\x0b' || c = '\x0c'

/-- Leading-whitespace trim (one side of JS `String.prototype.trim`). -/
def trimL (s : Str) : Str := s.dropWhile (fun c => isWs c)

/-- JS `String.prototype.trim`. -/
def trimStr (s : Str) : Str := ((trimL s).reverse.dropWhile (fun c => isWs c)).reverse

/-- Replaces each maximal run of characters satisfying `p` by the single
character `rep`; the accumulator flag records whether the previous input
character was in a run.  This is JS `.replace(/X+/g, rep)` for a class `X`. -/
def collapseRunsAux (p : Char → Bool) (rep : Char) : Bool → Str → Str
  | _, [] => []
  | prevRun, c :: rest =>
    if p c then
      if prevRun then collapseRunsAux p rep true rest
      else rep :: collapseRunsAux p rep true rest
    else c :: collapseRunsAux p rep false rest

/-- Replace each maximal run of `p`-characters by `rep`. -/
def collapseRuns (p : Char → Bool) (rep : Char) (s : Str) : Str :=
  collapseRunsAux p rep false s

/-- MetadataExtractor.ts `cleanValue`, first step: `.replace(/\s+/g, ' ')`. -/
def collapseWs (s : Str) : Str := collapseRuns isWs ' ' s

/-- The character class `[:\-\s]` of `cleanValue`'s edge-stripping regex. -/
def isStripChar (c : Char) : Bool := c = ':' || c = '-' || isWs c

/-- MetadataExtractor.ts `cleanValue`, second step:
`.replace(/^[:\-\s]+|[:\-\s]+$/g, '')` (remove the leading and the trailing
run of colon/dash/whitespace characters). -/
def stripEdges (s : Str) : Str :=
  ((s.dropWhile isStripChar).reverse.dropWhile isStripChar).reverse

/-- MetadataExtractor.ts `cleanValue`:
`value.replace(/\s+/g, ' ').replace(/^[:\-\s]+|[:\-\s]+$/g, '').trim()`. -/
def cleanValue (s : Str) : Str := trimStr (stripEdges (collapseWs s))

/-- Lowercasing a string character-wise (JS `toLowerCase` on the ASCII range). -/
def lowerStr (s : Str) : Str := s.map Char.toLower

/-- Whether `s` begins with `pat` (exact characters). -/
def startsWithStr : Str → Str → Bool
  | _, [] => true
  | [], _ :: _ => false
  | c :: cs, p :: ps => c = p && startsWithStr cs ps

/-- Whether `pat` occurs contiguously inside `s`: JS `String.prototype.includes`. -/
def containsSub : Str → Str → Bool
  | [], pat => pat.isEmpty
  | s@(_ :: rest), pat => startsWithStr s pat || containsSub rest pat

example : cleanValue "  : Taj   Mahal -- ".toList = "Taj Mahal".toList := by decide
example : cleanValue "---".toList = [] := by decide
example : containsSub "File size (".toList "size".toList = true := by decide

/-- Splitting on the separator regex `/\r?\n/`. -/
def splitRN : Str → List Str
  | [] => [[]]
  | '\r' :: '\n' :: rest => [] :: splitRN rest
  | '\n' :: rest => [] :: splitRN rest
  | c :: rest =>
    match splitRN rest with
    | l :: ls => (c :: l) :: ls
    | [] => [[c]]

example : splitRN "a\r\nb\n\nc".toList = ["a".toList, "b".toList, [], "c".toList] := by decide

/-- JS `\w`, the word-character class `[A-Za-z0-9_]`. -/
def isWordChar (c : Char) : Bool :=
  ('a' ≤ c && c ≤ 'z') || ('A' ≤ c && c ≤ 'Z') || ('0' ≤ c && c ≤ '9') || c = '_'

/-- An ASCII letter, i.e. `[a-z]` under the `i` regex flag. -/
def isAsciiLetter (c : Char) : Bool := ('a' ≤ c && c ≤ 'z') || ('A' ≤ c && c ≤ 'Z')

/-- FieldMatcher.ts `normalizeFieldName`: lowercase, collapse runs of
`[_\s-]` to a single underscore, drop everything outside `[a-z0-9_]`, trim. -/
def isSepChar (c : Char) : Bool := c = '_' || isWs c || c = '-'

/-- Keep-set of `normalizeFieldName`'s final filter, `[a-z0-9_]`. -/
def isLowerAlnumUnd (c : Char) : Bool :=
  ('a' ≤ c && c ≤ 'z') || ('0' ≤ c && c ≤ '9') || c = '_'

/-- FieldMatcher.ts `normalizeFieldName`. -/
def normalizeFieldName (s : Str) : Str :=
  trimStr ((collapseRuns isSepChar '_' (lowerStr s)).filter isLowerAlnumUnd)

example : normalizeFieldName "Place  Name".toList = "place_name".toList := by decide
example : normalizeFieldName "My-City!".toList = "my_city".toList := by decide

/-!
## Metadata extractor data model (MetadataExtractor.ts)
-/

/-- A table cell: `string | number | boolean | null`.  The numbers relevant to
the verified properties are integral, so `number` is carried as `Int`. -/
inductive Cell where
  | str (s : Str)
  | num (n : Int)
  | bool (b : Bool)
  | null
deriving DecidableEq

/-- Decimal digits of a natural number. -/
def natToStr (n : Nat) : Str := Nat.toDigits 10 n

/-- JS `String()` of an integral number. -/
def intToStr : Int → Str
  | .ofNat n => natToStr n
  | .negSucc n => '-' :: natToStr (n + 1)

/-- JS `String(value ?? '')` on a cell (`null ?? ''` is `''`). -/
def cellToStr : Cell → Str
  | .null => []
  | .str s => s
  | .num n => intToStr n
  | .bool true => "true".toList
  | .bool false => "false".toList

/-- types/index.ts `ParsedTableData`. -/
structure ParsedTableData where
  headers : List Str
  rows : List (List Cell)
  rowCount : Nat
  columnCount : Nat
  sourceType : Option Str
  ocrText : Option Str
deriving DecidableEq

/-- MetadataExtractor.ts `MetadataExtractionResult`. -/
structure MetadataExtractionResult where
  placeName : Str
  location : Str
  placeConfidence : ℚ
  locationConfidence : ℚ
deriving DecidableEq

/-- MetadataExtractor.ts `emptyResult`. -/
def emptyResult : MetadataExtractionResult := ⟨[], [], 0, 0⟩

/-- The `PLACE_ALIASES` constant. -/
def PLACE_ALIASES : List Str :=
  ["place", "place_name", "name", "landmark", "monument", "attraction", "site",
    "title"].map String.toList

/-- The `LOCATION_ALIASES` constant. -/
def LOCATION_ALIASES : List Str :=
  ["location", "city", "state", "country", "region", "address", "loc",
    "area"].map String.toList

/-- The `PLACE_PRIORITY` constant. -/
def PLACE_PRIORITY : List Str :=
  ["place_name", "place", "landmark", "monument", "site", "name", "title",
    "attraction"].map String.toList

/-- The `LOCATION_PRIORITY` constant. -/
def LOCATION_PRIORITY : List Str :=
  ["city", "location", "loc", "region", "state", "address", "country",
    "area"].map String.toList

/-!
## Regex models for MetadataExtractor.ts

`PLACE_LOCATION_INLINE_PATTERN = /^(?:\d+\.\s*)?(.+?)\s*(?:->|→)\s*(.+)$/i`
and the two `LINE_PREFIX_PATTERNS`, with JS backtracking semantics.
-/

/-- Matches `\s*(?:->|→)\s*(.+)$` at the given string and returns group 2.
The greedy `\s*` before the arrow is exact (the arrow starts with a non-space
character); the greedy `\s*` after it backtracks one character when the
remainder is all whitespace so that `(.+)` can take one character. -/
def arrowTail (r : Str) : Option Str :=
  let r1 := r.dropWhile isWs
  let rest2? : Option Str :=
    match r1 with
    | '-' :: '>' :: rest => some rest
    | '→' :: rest => some rest
    | _ => none
  rest2?.bind (fun rest2 =>
    let t := rest2.dropWhile isWs
    if t ≠ [] then some t
    else
      match rest2.reverse with
      | c :: _ => some [c]
      | [] => none)

/-- Matches `(.+?)\s*(?:->|→)\s*(.+)$`: the lazy group 1 grows one character
at a time, exactly the regex engine's backtracking order. -/
def matchCore : Str → Option (Str × Str)
  | [] => none
  | c :: rest =>
    match arrowTail rest with
    | some g2 => some ([c], g2)
    | none => (matchCore rest).map (fun p => (c :: p.1, p.2))

/-- Backtracking of the greedy `\s*` inside the optional ordinal prefix:
try dropping `k, k-1, …, 0` whitespace characters. -/
def tryWsDrops (rem : Str) : Nat → Option (Str × Str)
  | 0 => matchCore rem
  | k + 1 => (matchCore (rem.drop (k + 1))).orElse (fun _ => tryWsDrops rem k)

/-- Full match of `PLACE_LOCATION_INLINE_PATTERN` returning (group 1, group 2):
the optional greedy `(?:\d+\.\s*)?` prefix is tried first, backtracking over
its `\s*` and then over taking the prefix at all. -/
def inlineMatch (L : Str) : Option (Str × Str) :=
  let digits := L.takeWhile Char.isDigit
  let afterDigits := L.dropWhile Char.isDigit
  let withOrdinal : Option (Str × Str) :=
    if digits ≠ [] then
      match afterDigits with
      | '.' :: rem => tryWsDrops rem (rem.takeWhile isWs).length
      | _ => none
    else none
  withOrdinal.orElse (fun _ => matchCore L)

example : inlineMatch "1. Eiffel Tower -> Paris".toList =
    some ("Eiffel Tower".toList, "Paris".toList) := by decide
example : inlineMatch "---".toList = none := by decide
example : inlineMatch "ab cd -> e".toList = some ("ab cd".toList, "e".toList) := by decide

/-- Case-insensitive literal prefix: returns the remainder on success. -/
def stripCI : Str → Str → Option Str
  | s, [] => some s
  | [], _ :: _ => none
  | c :: cs, p :: ps => if c.toLower = p.toLower then stripCI cs ps else none

/-- After an alias alternative has matched, `\s*[:\-]\s*(.+)$` must follow;
returns the capture.  Both `\s*` are handled as in `arrowTail`. -/
def sepCapture (r : Str) : Option Str :=
  let r1 := r.dropWhile isWs
  match r1 with
  | ':' :: rest | '-' :: rest =>
    let t := rest.dropWhile isWs
    if t ≠ [] then some t
    else
      match rest.reverse with
      | c :: _ => some [c]
      | [] => none
  | _ => none

/-- One alias alternative of a `LINE_PREFIX_PATTERNS` regex: the alias is a
literal matched case-insensitively (aliases contain no `\s*`). -/
def aliasCapture (a : Str) (line : Str) : Option Str :=
  (stripCI line a).bind sepCapture

/-- The special first alternative `place\s*name` of the place prefix regex. -/
def placeNameAliasCapture (line : Str) : Option Str :=
  (stripCI line "place".toList).bind (fun r =>
    (stripCI (r.dropWhile isWs) "name".toList).bind sepCapture)

/-- `LINE_PREFIX_PATTERNS.place`:
`/^(?:place\s*name|place|landmark|monument|site|name)\s*[:\-]\s*(.+)$/i`,
alternatives tried in order. -/
def placePrefixCapture (line : Str) : Option Str :=
  (placeNameAliasCapture line).orElse (fun _ =>
  (aliasCapture "place".toList line).orElse (fun _ =>
  (aliasCapture "landmark".toList line).orElse (fun _ =>
  (aliasCapture "monument".toList line).orElse (fun _ =>
  (aliasCapture "site".toList line).orElse (fun _ =>
  aliasCapture "name".toList line)))))

/-- `LINE_PREFIX_PATTERNS.location`:
`/^(?:location|city|state|country|region|address)\s*[:\-]\s*(.+)$/i`. -/
def locationPrefixCapture (line : Str) : Option Str :=
  (aliasCapture "location".toList line).orElse (fun _ =>
  (aliasCapture "city".toList line).orElse (fun _ =>
  (aliasCapture "state".toList line).orElse (fun _ =>
  (aliasCapture "country".toList line).orElse (fun _ =>
  (aliasCapture "region".toList line).orElse (fun _ =>
  aliasCapture "address".toList line)))))

example : placePrefixCapture "Place Name: Taj Mahal".toList = some "Taj Mahal".toList := by decide
example : locationPrefixCapture "Location: Agra, India".toList = some "Agra, India".toList := by decide
example : placePrefixCapture "places: X".toList = none := by decide

/-- Keep-set of the extra inline-location cleanup regex
`/\s*[^\w\s,./()'-]+$/g` (characters NOT removed by its negated class). -/
def isKeepChar (c : Char) : Bool :=
  isWordChar c || isWs c || c = ',' || c = '.' || c = '/' || c = '(' || c = ')' ||
    c = Char.ofNat 39 || c = '-'

/-- The inline-location extra cleanup: remove the maximal trailing run of
non-keep characters together with the whitespace run directly before it. -/
def stripTrailingJunk (s : Str) : Str :=
  let r := s.reverse
  if r.takeWhile (fun c => !isKeepChar c) = [] then s
  else ((r.dropWhile (fun c => !isKeepChar c)).dropWhile isWs).reverse

example : trimStr (stripTrailingJunk (cleanValue "abc-!!".toList)) = "abc-".toList := by decide

/-- MetadataExtractor.ts `isLikelyPlaceName`. -/
def isLikelyPlaceName (line : Str) : Bool :=
  if line.isEmpty || line.length < 3 || 120 < line.length then false
  else
    let lower := lowerStr line
    if containsSub lower "location".toList || containsSub lower "address".toList ||
        containsSub lower "city".toList then false
    else
      -- `(line.match(/\d/g) || []).length / line.length < 0.2`; for the line
      -- lengths admitted above the float comparison agrees with the exact one.
      5 * (line.filter Char.isDigit).length < line.length

/-- Whether the line has a bare two-letter token, `/\b[a-z]{2}\b/i`:
two ASCII letters with no word character on either side. -/
def twoLetterAt : Option Char → Str → Bool
  | prev, c1 :: c2 :: rest =>
    (isAsciiLetter c1 && isAsciiLetter c2 &&
      (match prev with | none => true | some p => !isWordChar p) &&
      (match rest with | [] => true | r :: _ => !isWordChar r))
    || twoLetterAt (some c1) (c2 :: rest)
  | _, _ => false

/-- Entry point for the two-letter-token test. -/
def hasTwoLetterToken (line : Str) : Bool := twoLetterAt none line

example : hasTwoLetterToken "Paris FR".toList = true := by decide
example : hasTwoLetterToken "Paris".toList = false := by decide

/-- MetadataExtractor.ts `isLikelyLocation`. -/
def isLikelyLocation (line : Str) : Bool :=
  let lower := lowerStr line
  containsSub lower ",".toList ||
    containsSub lower "city".toList ||
    containsSub lower "state".toList ||
    containsSub lower "country".toList ||
    containsSub lower "region".toList ||
    hasTwoLetterToken line

/-!
## MetadataExtractor.ts core
-/

/-- The two target fields handed to the `FieldMatcher` by `findHeaderMatch`. -/
inductive TargetField where
  | placeName
  | location
deriving DecidableEq

/-- FieldMatcher.ts `FieldMatch` (the `score` field is unused downstream). -/
structure FieldMatch where
  sourceField : Str
  targetField : TargetField
  confidence : ℚ

/-- The `FieldMatcher` built on the external Fuse.js library is modelled as an
oracle: the confidence-sorted match list `matcher.matchFields(headers)`
returned for the given header list. -/
abbrev FuzzyOracle := List Str → List FieldMatch

/-- The always-empty fuzzy oracle (no Fuse.js result at all). -/
def noFuzzy : FuzzyOracle := fun _ => []

/-- Result shape of `findHeaderMatch` / `findPriorityMatch`:
`{ index: number; confidence: number }` with `-1` as the no-match index. -/
structure HeaderMatch where
  index : Int
  confidence : ℚ
deriving DecidableEq

/-- MetadataExtractor.ts `findPriorityMatch`, with the running
`priorityIndex` made explicit: for each priority token in order, first an
exact scan over all headers, then a substring scan over all headers. -/
def findPriorityMatchAux (normalizedHeaders : List Str) : List Str → Nat → HeaderMatch
  | [], _ => ⟨-1, 0⟩
  | priority :: rest, priorityIndex =>
    match normalizedHeaders.findIdx? (fun h => h = priority) with
    | some j => ⟨j, 0.96 - min ((priorityIndex : ℚ) * 0.01) 0.1⟩
    | none =>
      match normalizedHeaders.findIdx? (fun h => containsSub h priority) with
      | some j => ⟨j, 0.88 - min ((priorityIndex : ℚ) * 0.01) 0.1⟩
      | none => findPriorityMatchAux normalizedHeaders rest (priorityIndex + 1)

/-- MetadataExtractor.ts `findPriorityMatch`. -/
def findPriorityMatch (normalizedHeaders priorities : List Str) : HeaderMatch :=
  findPriorityMatchAux normalizedHeaders priorities 0

/-- MetadataExtractor.ts `findHeaderMatch`: priority tiers, then exact alias,
then substring alias, then the fuzzy-matcher fallback gated at `0.55`. -/
def findHeaderMatch (fuzzy : FuzzyOracle) (headers : List Str) (aliases : List Str)
    (targetField : TargetField) : HeaderMatch :=
  let normalizedHeaders := headers.map normalizeFieldName
  let priorityPatterns :=
    if targetField = TargetField.location then LOCATION_PRIORITY else PLACE_PRIORITY
  let preferredMatch := findPriorityMatch normalizedHeaders priorityPatterns
  if preferredMatch.index ≠ -1 then preferredMatch
  else
    match normalizedHeaders.findIdx? (fun h => aliases.any (fun a => h = a)) with
    | some i => ⟨i, 0.95⟩
    | none =>
      match normalizedHeaders.findIdx? (fun h => aliases.any (fun a => containsSub h a)) with
      | some i => ⟨i, 0.82⟩
      | none =>
        match (fuzzy headers).find? (fun m => m.targetField = targetField) with
        | none => ⟨-1, 0⟩
        | some m =>
          if m.confidence < 0.55 then ⟨-1, 0⟩
          else
            match headers.findIdx? (fun h => h = m.sourceField) with
            | some i => ⟨i, m.confidence⟩
            | none => ⟨-1, m.confidence⟩

/-- MetadataExtractor.ts `nonEmptyValueCount`. -/
def nonEmptyValueCount (row : List Cell) : Nat :=
  (row.filter (fun v => trimStr (cellToStr v) ≠ [])).length

/-- Insertion step of a stable descending sort by `nonEmptyValueCount`:
`x` (originally earliest) goes in front of the first element whose count is
not larger. -/
def insertByCountDesc (x : List Cell) : List (List Cell) → List (List Cell)
  | [] => [x]
  | y :: ys =>
    if nonEmptyValueCount y ≤ nonEmptyValueCount x then x :: y :: ys
    else y :: insertByCountDesc x ys

/-- Model of `[...rows].sort((l, r) => count(r) - count(l))`: a stable sort is
extensionally determined by its comparator, so any stable descending sort is
the ES2019 `Array.prototype.sort`. -/
def sortByCountDesc : List (List Cell) → List (List Cell)
  | [] => []
  | x :: xs => insertByCountDesc x (sortByCountDesc xs)

/-- MetadataExtractor.ts `getBestDataRow` (callers guarantee non-emptiness;
`[]` stands for the out-of-bounds `undefined` of `rows[0]` on `[]`). -/
def getBestDataRow (rows : List (List Cell)) : List Cell :=
  if rows.length = 1 then rows.headD []
  else (sortByCountDesc rows).headD []

/-- MetadataExtractor.ts `readValueFromRow`. -/
def readValueFromRow (row : List Cell) (index : Int) : Str :=
  if index < 0 ∨ (row.length : Int) ≤ index then []
  else cleanValue (cellToStr ((row.get? index.toNat).getD (Cell.str [])))

/-- MetadataExtractor.ts `extractFromTableData`. -/
def extractFromTableData (fuzzy : FuzzyOracle) (data : ParsedTableData) :
    MetadataExtractionResult :=
  if data.headers.length = 0 ∨ data.rows.length = 0 then emptyResult
  else
    let row := getBestDataRow data.rows
    let headers := data.headers
    let placeMatch := findHeaderMatch fuzzy headers PLACE_ALIASES TargetField.placeName
    let locationMatch := findHeaderMatch fuzzy headers LOCATION_ALIASES TargetField.location
    let placeName := readValueFromRow row placeMatch.index
    let location := readValueFromRow row locationMatch.index
    { placeName := placeName
      location := location
      placeConfidence := if placeName ≠ [] then placeMatch.confidence else 0
      locationConfidence := if location ≠ [] then locationMatch.confidence else 0 }

/-- State passed around `extractFromText`'s scanning loop. -/
structure ScanState where
  placeName : Str
  location : Str
  placeConfidence : ℚ
  locationConfidence : ℚ

/-- Outcome of the scanning loop: `finished` is the early `return` taken when
the inline arrow pattern yields two non-empty cleaned values; `looped` is the
state at the end of the loop (including the `break` when both are found). -/
inductive ScanOut where
  | finished (m : MetadataExtractionResult)
  | looped (st : ScanState)

/-- The inline-arrow test at the top of the loop body: the early `return`
value, when both cleaned sides are non-empty. -/
def inlineHit (line : Str) : Option MetadataExtractionResult :=
  (inlineMatch line).bind (fun g =>
    let inlinePlace := cleanValue g.1
    let inlineLocation := trimStr (stripTrailingJunk (cleanValue g.2))
    if inlinePlace ≠ [] ∧ inlineLocation ≠ [] then
      some ⟨inlinePlace, inlineLocation, 0.88, 0.88⟩
    else none)

/-- The `if (!placeName)` labeled-prefix assignment of the loop body. -/
def applyPlaceCapture (line : Str) (st : ScanState) : ScanState :=
  if st.placeName = [] then
    match placePrefixCapture line with
    | some cap =>
      let v := cleanValue cap
      { st with placeName := v, placeConfidence := if v ≠ [] then (0.9 : ℚ) else 0 }
    | none => st
  else st

/-- The `if (!location)` labeled-prefix assignment of the loop body. -/
def applyLocationCapture (line : Str) (st : ScanState) : ScanState :=
  if st.location = [] then
    match locationPrefixCapture line with
    | some cap =>
      let v := cleanValue cap
      { st with location := v, locationConfidence := if v ≠ [] then (0.9 : ℚ) else 0 }
    | none => st
  else st

/-- The `for (const line of lines)` loop of `extractFromText`. -/
def scanLines : List Str → ScanState → ScanOut
  | [], st => .looped st
  | line :: rest, st =>
    match inlineHit line with
    | some m => .finished m
    | none =>
      let st := applyLocationCapture line (applyPlaceCapture line st)
      if st.placeName ≠ [] ∧ st.location ≠ [] then .looped st
      else scanLines rest st

/-- The `if (!placeName)` likely-place fallback after the scan. -/
def applyPlaceFallback (lines : List Str) (st : ScanState) : ScanState :=
  if st.placeName = [] then
    match lines.find? isLikelyPlaceName with
    | some likelyPlace =>
      { st with placeName := cleanValue likelyPlace, placeConfidence := (0.55 : ℚ) }
    | none => st
  else st

/-- The `if (!location)` likely-location fallback after the scan. -/
def applyLocationFallback (lines : List Str) (st : ScanState) : ScanState :=
  if st.location = [] then
    match lines.find? isLikelyLocation with
    | some likelyLocation =>
      { st with location := cleanValue likelyLocation, locationConfidence := (0.55 : ℚ) }
    | none => st
  else st

/-- MetadataExtractor.ts `extractFromText`. -/
def extractFromText (text : Str) : MetadataExtractionResult :=
  let lines := ((splitRN text).map trimStr).filter (fun l => l ≠ [])
  match scanLines lines ⟨[], [], 0, 0⟩ with
  | .finished m => m
  | .looped st =>
    let st := applyLocationFallback lines (applyPlaceFallback lines st)
    ⟨st.placeName, st.location, st.placeConfidence, st.locationConfidence⟩

/-- MetadataExtractor.ts `extractFromObject`: keys become headers, values the
single row. -/
def extractFromObject (fuzzy : FuzzyOracle) (record : List (Str × Cell)) :
    MetadataExtractionResult :=
  let headers := record.map Prod.fst
  extractFromTableData fuzzy
    { headers := headers
      rows := [record.map Prod.snd]
      rowCount := 1
      columnCount := headers.length
      sourceType := some "json".toList
      ocrText := none }

/-- JS `Array.prototype.join(sep)`. -/
def joinSep (sep : Str) : List Str → Str
  | [] => []
  | [x] => x
  | x :: xs => x ++ sep ++ joinSep sep xs

/-- The flattened-cells fallback text of `extractMetadataFromContent`:
`content.rows.flat().map(v => String(v ?? '').trim()).filter(Boolean).join('\n')`. -/
def flattenedText (data : ParsedTableData) : Str :=
  joinSep "\n".toList
    (((data.rows.flatten).map (fun v => trimStr (cellToStr v))).filter (fun s => s ≠ []))

/-- Classification of the `unknown` argument of `extractMetadataFromContent`
by the dispatch branch it takes: a value passing `isParsedTableData`, a
string, a non-empty array whose first element is a proper object (carried as
its key/value pairs), any other object (same carrier), or any remaining value
(`null`, numbers, booleans, empty arrays treated as objects reduce to the
same all-empty outcome and are represented by their key/value pairs or by
`other`). -/
inductive ExtractInput where
  | table (data : ParsedTableData)
  | str (s : Str)
  | arrObj (first : List (Str × Cell)) (rest : List (List (Str × Cell)))
  | record (kvs : List (Str × Cell))
  | other

/-- MetadataExtractor.ts `extractMetadataFromContent`. -/
def extractMetadataFromContent (fuzzy : FuzzyOracle) : ExtractInput →
    MetadataExtractionResult
  | .table data =>
    let tableResult := extractFromTableData fuzzy data
    if tableResult.placeName ≠ [] ∨ tableResult.location ≠ [] then tableResult
    else
      match data.ocrText with
      | some ocr =>
        if ocr ≠ [] then extractFromText ocr
        else extractFromText (flattenedText data)
      | none => extractFromText (flattenedText data)
  | .str s => extractFromText s
  | .arrObj first _ => extractFromObject fuzzy first
  | .record kvs => extractFromObject fuzzy kvs
  | .other => emptyResult

/-!
## File parser data model (types/index.ts, FileParser.ts, EnhancedFileParser.ts)
-/

/-- The browser `File` object, as far as the parser reads it. -/
structure JFile where
  name : Str
  type : Str
  size : Nat
  lastModified : Int

/-- types/index.ts `FileFormat`; the code guards `format.validator &&`, so the
custom validator is carried as an `Option`. -/
structure FileFormat where
  extension : Str
  mimeType : Str
  validator : Option (JFile → Bool)

/-- types/index.ts `ValidationResult`. -/
structure ValidationResult where
  isValid : Bool
  errors : List Str
deriving DecidableEq

/-- types/index.ts `FileMetadata`. -/
structure FileMetadata where
  name : Str
  size : Nat
  type : Str
  lastModified : Int
deriving DecidableEq

/-- types/index.ts `FileContent` (the `raw` of both parse paths proved about
here is a `ParsedTableData`). -/
structure FileContent where
  raw : ParsedTableData
  metadata : FileMetadata
deriving DecidableEq

/-- types/index.ts `ParseResult`, as the tagged union it always is at runtime
(`success`+`content` or `error` with a string `code` and `message`; the
untyped `details` field carries no information the properties below use). -/
inductive ParseResultT where
  | success (content : FileContent)
  | failure (code : Str) (message : Str)
deriving DecidableEq

/-- `getFileExtension`: the capture of `/\.([^.]+)$/`, else `''`. -/
def getFileExtension (filename : Str) : Str :=
  let ext := (filename.reverse.takeWhile (fun c => c ≠ '.')).reverse
  if ext.length < filename.length ∧ ext ≠ [] then ext else []

example : getFileExtension "archive.tar.GZ".toList = "GZ".toList := by decide
example : getFileExtension "noext".toList = [] := by decide
example : getFileExtension "dot.".toList = [] := by decide
example : getFileExtension ".csv".toList = "csv".toList := by decide

/-- Decimal rendering of a two-digit-padded number below 100. -/
def twoDigits (n : Nat) : Str := if n < 10 then '0' :: natToStr n else natToStr n

/-- JS `(bytes / (1024 * 1024)).toFixed(2)`: the byte count in binary
megabytes, rendered with two decimal places (rounding ties to the larger
hundredth; no property proved here inspects the digits). -/
def toFixed2MB (bytes : Nat) : Str :=
  let h := (bytes * 100 + 524288) / 1048576
  natToStr (h / 100) ++ '.' :: twoDigits (h % 100)

/-- The oversize error message of both `validate` implementations. -/
def sizeErrorMsg (maxFileSize fileSize : Nat) : Str :=
  "File size (".toList ++ toFixed2MB fileSize ++
    "MB) exceeds maximum allowed size of ".toList ++ toFixed2MB maxFileSize ++
    "MB".toList

/-- The zero-size error message of both `validate` implementations. -/
def emptyFileMsg : Str := "File is empty".toList

/-- The unsupported-format error message of both `validate` implementations. -/
def notSupportedMsg (supportedFormats : List FileFormat) : Str :=
  "File format not supported. Supported formats: ".toList ++
    joinSep ", ".toList (supportedFormats.map FileFormat.extension)

/-- EnhancedFileParser.ts: configured formats plus the `maxFileSize` default
already applied by the constructor (`config.maxFileSize ?? 10 * 1024 * 1024`). -/
structure EnhancedFileParser where
  supportedFormats : List FileFormat
  maxFileSize : Nat

/-- The `EnhancedFileParser` constructor. -/
def mkEnhancedFileParser (supportedFormats : List FileFormat)
    (maxFileSize : Option Nat) : EnhancedFileParser :=
  ⟨supportedFormats, maxFileSize.getD (10 * 1024 * 1024)⟩

/-- The `formatMatch` search of `EnhancedFileParser.validate`: the extension
must match, and then MIME type or the custom validator. -/
def findFormatE (P : EnhancedFileParser) (file : JFile) : Option FileFormat :=
  let extension := getFileExtension file.name
  P.supportedFormats.find? (fun format =>
    (lowerStr format.extension = lowerStr extension : Bool) &&
      ((format.mimeType = file.type : Bool) ||
        (match format.validator with | some v => v file | none => false)))

/-- EnhancedFileParser.ts `validate`. -/
def EnhancedFileParser.validate (P : EnhancedFileParser) (file : JFile) :
    ValidationResult :=
  let errors : List Str :=
    (if P.maxFileSize < file.size then [sizeErrorMsg P.maxFileSize file.size] else []) ++
    (if file.size = 0 then [emptyFileMsg] else []) ++
    (if (findFormatE P file).isNone then [notSupportedMsg P.supportedFormats] else [])
  ⟨errors.isEmpty, errors⟩

/-- FileParser.ts: configured formats plus the applied `maxFileSize` default. -/
structure FileParser where
  supportedFormats : List FileFormat
  maxFileSize : Nat

/-- The `FileParser` constructor. -/
def mkFileParser (supportedFormats : List FileFormat) (maxFileSize : Option Nat) :
    FileParser :=
  ⟨supportedFormats, maxFileSize.getD (10 * 1024 * 1024)⟩

/-- The `formatMatch` search of `FileParser.validate`: extension+MIME both
match, or the custom validator alone accepts. -/
def findFormatF (P : FileParser) (file : JFile) : Option FileFormat :=
  let fileExtension := lowerStr (getFileExtension file.name)
  P.supportedFormats.find? (fun format =>
    ((lowerStr format.extension = fileExtension : Bool) &&
        (format.mimeType = file.type : Bool)) ||
      (match format.validator with | some v => v file | none => false))

/-- FileParser.ts `validate`. -/
def FileParser.validate (P : FileParser) (file : JFile) : ValidationResult :=
  let errors : List Str :=
    (if P.maxFileSize < file.size then [sizeErrorMsg P.maxFileSize file.size] else []) ++
    (if file.size = 0 then [emptyFileMsg] else []) ++
    (if (findFormatF P file).isNone then [notSupportedMsg P.supportedFormats] else [])
  ⟨errors.isEmpty, errors⟩

/-!
## Format-specific extractors (EnhancedFileParser.ts)

Exceptions thrown inside the `parse` try-block are modelled with `Except`;
the error payload is `Option Str` — `some msg` for an `Error` with a message,
`none` for a thrown non-`Error` value (turned into "Unknown parsing error" by
the catch clause).  The outputs of the external libraries (Papa Parse, SheetJS,
PDF.js, Tesseract.js, `FileReader`, `JSON.parse`) are inputs of the model,
collected in `ParseEnv`.
-/

/-- Error payload of a JS throw: `some message` for an `Error`. -/
abbrev ThrowVal := Option Str

/-- A dynamically-typed scalar as handed over by Papa Parse or SheetJS:
`other` is any remaining object-like value, carried with its `String()` and
`JSON.stringify` renderings. -/
inductive JsScalar where
  | str (s : Str)
  | num (n : Int)
  | bool (b : Bool)
  | null
  | undef
  | other (text json : Str)
deriving DecidableEq

/-- EnhancedFileParser.ts `toCellValue`. -/
def toCellValue : JsScalar → Cell
  | .null => .null
  | .undef => .null
  | .str s => .str s
  | .num n => .num n
  | .bool b => .bool b
  | .other _ json => .str json

/-- JS `String()` of a scalar (used on the Excel header row). -/
def jsScalarToStr : JsScalar → Str
  | .str s => s
  | .num n => intToStr n
  | .bool true => "true".toList
  | .bool false => "false".toList
  | .null => "null".toList
  | .undef => "undefined".toList
  | .other text _ => text

/-- A parsed JSON value (the output of `JSON.parse`). -/
inductive Js where
  | str (s : Str)
  | num (n : Int)
  | bool (b : Bool)
  | null
  | arr (elems : List Js)
  | obj (fields : List (Str × Js))

/-- JS `typeof x === 'object'` (true for objects, arrays and `null`). -/
def Js.isObjectType : Js → Bool
  | .obj _ => true
  | .arr _ => true
  | .null => true
  | _ => false

mutual

/-- `JSON.stringify` of a parsed JSON value (strings assumed escape-free, as
in every property proved here). -/
def jsonStringify : Js → Str
  | .null => "null".toList
  | .bool true => "true".toList
  | .bool false => "false".toList
  | .num n => intToStr n
  | .str s => '"' :: s ++ ['"']
  | .arr xs => '[' :: joinSep ",".toList (jsonStringifyList xs) ++ [']']
  | .obj kvs => '\x7b' :: joinSep ",".toList (jsonStringifyFields kvs) ++ ['\x7d']

/-- `JSON.stringify` of array elements. -/
def jsonStringifyList : List Js → List Str
  | [] => []
  | x :: xs => jsonStringify x :: jsonStringifyList xs

/-- `JSON.stringify` of object fields. -/
def jsonStringifyFields : List (Str × Js) → List Str
  | [] => []
  | (k, v) :: xs => ('"' :: k ++ "\":".toList ++ jsonStringify v) :: jsonStringifyFields xs

end

/-- Decimal numeral parse (for JS numeric-string property access on arrays
and strings). -/
def parseDec (s : Str) : Option Nat :=
  if s ≠ [] ∧ s.all Char.isDigit then
    some (s.foldl (fun acc c => acc * 10 + (c.toNat - 48)) 0)
  else none

/-- JS `Object.keys` (throws on `null`; indices for arrays and strings; empty
for other primitives). -/
def objectKeys : Js → Except ThrowVal (List Str)
  | .null => .error (some "Cannot convert undefined or null to object".toList)
  | .obj kvs => .ok (kvs.map Prod.fst)
  | .arr xs => .ok ((List.range xs.length).map natToStr)
  | .str s => .ok ((List.range s.length).map natToStr)
  | _ => .ok []

/-- JS property access `x[key]`; `none` is `undefined`. -/
def jsGetVal : Js → Str → Option Js
  | .obj kvs, key => (kvs.find? (fun kv => kv.1 = key)).map Prod.snd
  | .arr xs, key => (parseDec key).bind (fun i => xs.get? i)
  | .str s, key => ((parseDec key).bind (fun i => s.get? i)).map (fun c => .str [c])
  | _, _ => none

/-- `toCellValue` applied to a JSON property (`undefined` behaves as the
missing value, objects are serialised). -/
def toCellValueJs : Option Js → Cell
  | none => .null
  | some .null => .null
  | some (.str s) => .str s
  | some (.num n) => .num n
  | some (.bool b) => .bool b
  | some (.arr xs) => .str (jsonStringify (.arr xs))
  | some (.obj kvs) => .str (jsonStringify (.obj kvs))

/-- The library outputs a single `parse(file)` call can observe. -/
structure ParseEnv where
  /-- Papa Parse outcome: on `complete`, `results.meta.fields` (possibly
  absent) and `results.data` as records; on `error`, the error message. -/
  csv : Except Str (Option (List Str) × List (List (Str × JsScalar)))
  /-- SheetJS outcome: `sheet_to_json(..., { header: 1 })` of the first
  sheet, or the exception thrown while reading the workbook. -/
  excel : Except ThrowVal (List (List JsScalar))
  /-- Whether `typeof document !== 'undefined'` (and `window` for OCR). -/
  hasDom : Bool
  /-- PDF.js outcome: per page, the `str` fields of `getTextContent().items`
  (`none` for a non-string field), or the exception of `getDocument`. -/
  pdfPages : Except ThrowVal (List (List (Option Str)))
  /-- `createOcrWorker()` outcome (Tesseract.js load and worker creation). -/
  ocrWorker : Except ThrowVal Unit
  /-- `worker.recognize(file)` outcome: `data?.text` (`none` if absent). -/
  ocrText : Except ThrowVal (Option Str)
  /-- `readAsText` plus `JSON.parse` outcome for `.json` files. -/
  jsonValue : Except ThrowVal Js
  /-- `readAsText` outcome for `.txt` files. -/
  textContent : Except ThrowVal Str

/-- EnhancedFileParser.ts `createTextData`. -/
def createTextData (text : Str) (sourceType : Str) : ParsedTableData :=
  let lines := ((splitRN text).map trimStr).filter (fun l => l ≠ [])
  { headers := ["Content".toList]
    rows := lines.map (fun line => [Cell.str line])
    rowCount := lines.length
    columnCount := 1
    sourceType := some sourceType
    ocrText := if sourceType = "image-ocr".toList then some text else none }

/-- EnhancedFileParser.ts `parseCSV` (the `complete` callback; on `error` the
promise rejects with `CSV parsing failed: …`). -/
def parseCSV (env : ParseEnv) : Except ThrowVal ParsedTableData :=
  match env.csv with
  | .error msg => .error (some ("CSV parsing failed: ".toList ++ msg))
  | .ok (fields, data) =>
    let headers := fields.getD []
    let rows := data.map (fun row =>
      headers.map (fun header =>
        toCellValue (((row.find? (fun kv => kv.1 = header)).map Prod.snd).getD .undef)))
    .ok { headers := headers
          rows := rows
          rowCount := rows.length
          columnCount := headers.length
          sourceType := some "csv".toList
          ocrText := none }

/-- EnhancedFileParser.ts `parseExcel`. -/
def parseExcel (env : ParseEnv) : Except ThrowVal ParsedTableData := do
  let jsonData ← env.excel
  if jsonData.length = 0 then
    .error (some "Excel file is empty".toList)
  else
    let headers := (jsonData.headD []).map jsScalarToStr
    let rows := jsonData.tail.map (fun row => row.map toCellValue)
    .ok { headers := headers
          rows := rows
          rowCount := rows.length
          columnCount := headers.length
          sourceType := some "excel".toList
          ocrText := none }

/-- EnhancedFileParser.ts `extractNativePdfText`: join the items' `str`
fields with spaces, collapse whitespace, trim. -/
def extractNativePdfText (items : List (Option Str)) : Str :=
  trimStr (collapseWs (joinSep " ".toList (items.map (fun o => o.getD []))))

/-- EnhancedFileParser.ts `parsePDF`: native text layer only, no OCR. -/
def parsePDF (env : ParseEnv) : Except ThrowVal ParsedTableData := do
  if env.hasDom = false then
    .error (some "PDF parsing requires a browser environment".toList)
  else
    let pages ← env.pdfPages
    let pageTexts := (pages.map extractNativePdfText).filter (fun t => t ≠ [])
    let text := trimStr (joinSep "\n".toList pageTexts)
    if text = [] then
      .error (some "No readable native text found in PDF".toList)
    else
      .ok (createTextData text "pdf".toList)

/-- EnhancedFileParser.ts `parseImage`: create an OCR worker, recognize, and
fail when no text came back. -/
def parseImage (env : ParseEnv) : Except ThrowVal ParsedTableData := do
  let _ ← env.ocrWorker
  let data ← env.ocrText
  let text := (data.map trimStr).getD []
  if text = [] then
    .error (some "No readable text found in image".toList)
  else
    .ok (createTextData text "image-ocr".toList)

/-- EnhancedFileParser.ts `parseJSON`, branches after the first
(array-of-objects) check: nested array-of-objects property, then single
object, then the unsupported-shape error. -/
def parseJSONFallback (data : Js) : Except ThrowVal ParsedTableData := do
  let keys ← objectKeys data
  let nested := keys.findSome? (fun key =>
    match jsGetVal data key with
    | some (.arr (v :: vs)) => if v.isObjectType then some (v :: vs) else none
    | _ => none)
  match nested with
  | some nestedRows => do
    let headers ← objectKeys (nestedRows.headD .null)
    let rows := nestedRows.map (fun item =>
      headers.map (fun header => toCellValueJs (jsGetVal item header)))
    .ok { headers := headers
          rows := rows
          rowCount := rows.length
          columnCount := headers.length
          sourceType := some "json".toList
          ocrText := none }
  | none =>
    match data with
    | .obj kvs =>
      let headers := kvs.map Prod.fst
      let rows := [kvs.map (fun kv => toCellValueJs (some kv.2))]
      .ok { headers := headers
            rows := rows
            rowCount := 1
            columnCount := headers.length
            sourceType := some "json".toList
            ocrText := none }
    | _ =>
      .error (some "JSON format not supported. Expected array of objects or single object.".toList)

/-- EnhancedFileParser.ts `parseJSON`. -/
def parseJSON (env : ParseEnv) : Except ThrowVal ParsedTableData := do
  let data ← env.jsonValue
  match data with
  | .arr (first :: rest) =>
    if first.isObjectType then do
      let headers ← objectKeys first
      let rows := (first :: rest).map (fun o =>
        headers.map (fun header => toCellValueJs (jsGetVal o header)))
      .ok { headers := headers
            rows := rows
            rowCount := rows.length
            columnCount := headers.length
            sourceType := some "json".toList
            ocrText := none }
    else parseJSONFallback data
  | _ => parseJSONFallback data

/-- EnhancedFileParser.ts `parseText`. -/
def parseText (env : ParseEnv) : Except ThrowVal ParsedTableData := do
  let text ← env.textContent
  .ok (createTextData text "txt".toList)

/-- EnhancedFileParser.ts `extractMetadata`. -/
def extractFileMetadata (file : JFile) : FileMetadata :=
  ⟨file.name, file.size, file.type, file.lastModified⟩

/-- The `switch (extension.toLowerCase())` of `parse`: the chosen extractor's
outcome, paired with the number of `createOcrWorker` invocations the branch
performs. -/
def dispatchExtractor (ext : Str) (env : ParseEnv) :
    Except ThrowVal ParsedTableData × Nat :=
  if ext = "csv".toList then (parseCSV env, 0)
  else if ext = "xlsx".toList ∨ ext = "xls".toList then (parseExcel env, 0)
  else if ext = "pdf".toList then (parsePDF env, 0)
  else if ext = "json".toList then (parseJSON env, 0)
  else if ext = "txt".toList then (parseText env, 0)
  else if ext = "png".toList ∨ ext = "jpg".toList ∨ ext = "jpeg".toList ∨
      ext = "webp".toList ∨ ext = "gif".toList then (parseImage env, 1)
  else (.error (some ("Unsupported file type: ".toList ++ ext)), 0)

/-- EnhancedFileParser.ts `parse`: validation, dispatch, envelope assembly,
with the surrounding try/catch turning every throw into a `PARSE_ERROR`
failure.  The second component counts `createOcrWorker` invocations. -/
def EnhancedFileParser.parse (P : EnhancedFileParser) (file : JFile)
    (env : ParseEnv) : ParseResultT × Nat :=
  let validationResult := P.validate file
  if validationResult.isValid = false then
    (.failure "VALIDATION_ERROR".toList (joinSep "; ".toList validationResult.errors), 0)
  else
    let extension := getFileExtension file.name
    let d := dispatchExtractor (lowerStr extension) env
    match d.1 with
    | .ok parsedData =>
      (.success ⟨parsedData, extractFileMetadata file⟩, d.2)
    | .error e =>
      (.failure "PARSE_ERROR".toList (e.getD "Unknown parsing error".toList), d.2)

/-!
## Lemmas about `cleanValue`
-/

/-- Adjacency test used by C10: no two consecutive whitespace characters. -/
def noAdjWs : Str → Bool
  | c1 :: c2 :: rest => !(isWs c1 && isWs c2) && noAdjWs (c2 :: rest)
  | _ => true

/-- Every whitespace character is a plain space. -/
def wsCharsOk (s : Str) : Bool := s.all (fun c => !isWs c || c = ' ')

/-- Neither edge character is a colon, dash or whitespace. -/
def edgeOk (s : Str) : Bool :=
  (match s.head? with | some c => !isStripChar c | none => true) &&
  (match s.getLast? with | some c => !isStripChar c | none => true)

/-- A string with single plain internal spaces and clean edges. -/
def cleanShape (s : Str) : Bool := wsCharsOk s && noAdjWs s && edgeOk s

theorem noAdjWs_tail {c : Char} {l : Str} (h : noAdjWs (c :: l) = true) :
    noAdjWs l = true := by
  cases l with
  | nil => rfl
  | cons b t => simp only [noAdjWs, Bool.and_eq_true] at h; exact h.2

theorem noAdjWs_cons_of {c : Char} {l : Str}
    (h1 : ∀ c2, l.head? = some c2 → (isWs c && isWs c2) = false)
    (h2 : noAdjWs l = true) : noAdjWs (c :: l) = true := by
  cases l with
  | nil => rfl
  | cons b t =>
    simp only [noAdjWs, Bool.and_eq_true]
    exact ⟨by simp [h1 b rfl], h2⟩

theorem noAdjWs_append_right {l1 l2 : Str} (h : noAdjWs (l1 ++ l2) = true) :
    noAdjWs l2 = true := by
  induction l1 with
  | nil => exact h
  | cons a t ih => exact ih (noAdjWs_tail h)

theorem noAdjWs_append_left {l1 l2 : Str} (h : noAdjWs (l1 ++ l2) = true) :
    noAdjWs l1 = true := by
  induction l1 with
  | nil => rfl
  | cons a t ih =>
    cases t with
    | nil => rfl
    | cons b t' =>
      simp only [List.cons_append, noAdjWs, Bool.and_eq_true] at h ⊢
      exact ⟨h.1, ih h.2⟩

/-- `noAdjWs` holds on any contiguous substring. -/
theorem noAdjWs_infix {l s : Str} (h : noAdjWs s = true) (hinf : l <:+: s) :
    noAdjWs l = true := by
  obtain ⟨p, q, rfl⟩ := hinf
  exact noAdjWs_append_left (@noAdjWs_append_right p (l ++ q) (by simpa using h))

theorem wsCharsOk_of_subset {l s : Str} (h : wsCharsOk s = true)
    (hsub : ∀ c, c ∈ l → c ∈ s) : wsCharsOk l = true := by
  simp only [wsCharsOk, List.all_eq_true] at h ⊢
  exact fun c hc => h c (hsub c hc)

theorem collapseRunsAux_wsCharsOk (b : Bool) (s : Str) :
    wsCharsOk (collapseRunsAux isWs ' ' b s) = true := by
  induction s generalizing b with
  | nil => rfl
  | cons c rest ih =>
    simp only [collapseRunsAux]
    by_cases hc : isWs c = true
    · simp only [hc, if_true]
      cases b with
      | true => simpa using ih true
      | false =>
        simp only [Bool.false_eq_true, if_false]
        have := ih true
        simp only [wsCharsOk, List.all_eq_true] at this ⊢
        intro x hx
        rcases List.mem_cons.mp hx with h | h
        · simp [h]
        · exact this x h
    · simp only [Bool.not_eq_true] at hc
      simp only [hc, Bool.false_eq_true, if_false]
      have := ih false
      simp only [wsCharsOk, List.all_eq_true] at this ⊢
      intro x hx
      rcases List.mem_cons.mp hx with h | h
      · simp [h, hc]
      · exact this x h

theorem collapseRunsAux_head_true (s : Str) :
    ∀ c, (collapseRunsAux isWs ' ' true s).head? = some c → isWs c = false := by
  induction s with
  | nil => intro c h; simp [collapseRunsAux] at h
  | cons a rest ih =>
    intro c h
    by_cases ha : isWs a = true
    · rw [collapseRunsAux, if_pos ha, if_pos rfl] at h
      exact ih c h
    · simp only [Bool.not_eq_true] at ha
      rw [collapseRunsAux, if_neg (by simp [ha])] at h
      simp only [List.head?_cons, Option.some.injEq] at h
      simpa [← h] using ha

theorem collapseRunsAux_noAdjWs (b : Bool) (s : Str) :
    noAdjWs (collapseRunsAux isWs ' ' b s) = true := by
  induction s generalizing b with
  | nil => rfl
  | cons c rest ih =>
    simp only [collapseRunsAux]
    by_cases hc : isWs c = true
    · simp only [hc, if_true]
      cases b with
      | true => simpa using ih true
      | false =>
        simp only [Bool.false_eq_true, if_false]
        refine noAdjWs_cons_of (fun c2 h2 => ?_) (ih true)
        have := collapseRunsAux_head_true rest c2 h2
        simp [this]
    · simp only [Bool.not_eq_true] at hc
      simp only [hc, Bool.false_eq_true, if_false]
      refine noAdjWs_cons_of (fun c2 _ => ?_) (ih false)
      simp [hc]

/-- Membership survives run collapsing for non-run characters. -/
theorem mem_collapseRunsAux {c : Char} {s : Str} (hc : isWs c = false) (b : Bool)
    (h : c ∈ s) : c ∈ collapseRunsAux isWs ' ' b s := by
  induction s generalizing b with
  | nil => exact absurd h (List.not_mem_nil c)
  | cons a rest ih =>
    rcases List.mem_cons.mp h with rfl | hmem
    · simp only [collapseRunsAux, hc, Bool.false_eq_true, if_false]
      exact List.mem_cons_self _ _
    · by_cases ha : isWs a = true
      · simp only [collapseRunsAux, ha, if_true]
        cases b with
        | true => exact ih true hmem
        | false => exact List.mem_cons_of_mem _ (ih true hmem)
      · simp only [Bool.not_eq_true] at ha
        simp only [collapseRunsAux, ha, Bool.false_eq_true, if_false]
        exact List.mem_cons_of_mem _ (ih false hmem)

/-- Membership survives `dropWhile` for characters failing the predicate. -/
theorem mem_dropWhile_of_not {p : Char → Bool} {c : Char} {l : Str}
    (hc : p c = false) (h : c ∈ l) : c ∈ l.dropWhile p := by
  induction l with
  | nil => exact absurd h (List.not_mem_nil c)
  | cons a rest ih =>
    by_cases ha : p a = true
    · rw [List.dropWhile_cons_of_pos ha]
      rcases List.mem_cons.mp h with rfl | hmem
      · exact absurd ha (by simp [hc])
      · exact ih hmem
    · rw [List.dropWhile_cons_of_neg (by simpa using ha)]
      exact h

/-- `stripEdges` written with `List.rdropWhile`. -/
theorem stripEdges_eq (s : Str) :
    stripEdges s = List.rdropWhile isStripChar (s.dropWhile isStripChar) := rfl

/-- `trimStr` written with `List.rdropWhile`. -/
theorem trimStr_eq (s : Str) :
    trimStr s = List.rdropWhile (fun c => isWs c) (s.dropWhile (fun c => isWs c)) := rfl

/-- Membership survives `cleanValue` for characters that are not colon, dash
or whitespace; in particular the result is then non-empty. -/
theorem mem_cleanValue {c : Char} {s : Str} (hc : isStripChar c = false)
    (h : c ∈ s) : c ∈ cleanValue s := by
  have hws : isWs c = false := by
    cases hw : isWs c
    · rfl
    · exact absurd (by simp [isStripChar, hw] : isStripChar c = true) (by simp [hc])
  have h1 : c ∈ collapseWs s := mem_collapseRunsAux hws false h
  have h2 : c ∈ (collapseWs s).dropWhile isStripChar := mem_dropWhile_of_not hc h1
  have h3 : c ∈ stripEdges (collapseWs s) := by
    rw [stripEdges_eq, List.rdropWhile]
    exact List.mem_reverse.mpr
      (mem_dropWhile_of_not hc (List.mem_reverse.mpr h2))
  have h4 : c ∈ (stripEdges (collapseWs s)).dropWhile (fun c => isWs c) :=
    mem_dropWhile_of_not hws h3
  rw [cleanValue, trimStr_eq, List.rdropWhile]
  exact List.mem_reverse.mpr (mem_dropWhile_of_not hws (List.mem_reverse.mpr h4))

theorem cleanValue_ne_nil_of_mem {c : Char} {s : Str} (hc : isStripChar c = false)
    (h : c ∈ s) : cleanValue s ≠ [] :=
  fun hnil => by simpa [hnil] using mem_cleanValue hc h

theorem isStripChar_of_isWs {c : Char} (h : isWs c = true) : isStripChar c = true := by
  simp [isStripChar, h]

/-- A string already in collapsed shape is a fixed point of run collapsing. -/
theorem collapseRunsAux_fixed (t : Str) (hws : wsCharsOk t = true)
    (hadj : noAdjWs t = true) :
    collapseRunsAux isWs ' ' false t = t ∧
      ((∀ c, t.head? = some c → isWs c = false) → collapseRunsAux isWs ' ' true t = t) := by
  induction t with
  | nil => exact ⟨rfl, fun _ => rfl⟩
  | cons c rest ih =>
    have hwsc : isWs c = true → c = ' ' := by
      simp only [wsCharsOk, List.all_eq_true] at hws
      have := hws c (List.mem_cons_self _ _)
      intro h
      simpa [h] using this
    have hwsrest : wsCharsOk rest = true := by
      simp only [wsCharsOk, List.all_eq_true] at hws ⊢
      exact fun x hx => hws x (List.mem_cons_of_mem _ hx)
    have ihr := ih hwsrest (noAdjWs_tail hadj)
    by_cases hc : isWs c = true
    · have hheadrest : ∀ c2, rest.head? = some c2 → isWs c2 = false := by
        intro c2 h2
        cases rest with
        | nil => simp at h2
        | cons b t =>
          simp only [List.head?_cons, Option.some.injEq] at h2
          subst h2
          simp only [noAdjWs, Bool.and_eq_true] at hadj
          rcases Bool.not_eq_true' .. |>.mp hadj.1 |> Bool.and_eq_false_iff.mp with h | h
          · exact absurd h (by simp [hc])
          · exact h
      constructor
      · rw [collapseRunsAux, if_pos hc, if_neg (by simp)]
        rw [ihr.2 hheadrest, hwsc hc]
      · intro hhead
        exact absurd (hhead c rfl) (by simp [hc])
    · simp only [Bool.not_eq_true] at hc
      constructor
      · rw [collapseRunsAux, if_neg (by simp [hc]), ihr.1]
      · intro _
        rw [collapseRunsAux, if_neg (by simp [hc]), ihr.1]

/-- The head of a `dropWhile` result fails the predicate. -/
theorem head?_dropWhile_not {p : Char → Bool} {l : Str} {c : Char}
    (h : (l.dropWhile p).head? = some c) : p c = false := by
  induction l with
  | nil => simp [List.dropWhile] at h
  | cons a t ih =>
    by_cases ha : p a = true
    · rw [List.dropWhile_cons_of_pos ha] at h
      exact ih h
    · rw [List.dropWhile_cons_of_neg (by simpa using ha)] at h
      simp only [List.head?_cons, Option.some.injEq] at h
      subst h
      simpa using ha

/-- The head character of `stripEdges` is not a colon, dash or whitespace. -/
theorem stripEdges_head {u : Str} {c : Char}
    (h : (stripEdges u).head? = some c) : isStripChar c = false := by
  rw [stripEdges_eq] at h
  have hpre := List.rdropWhile_prefix isStripChar (u.dropWhile isStripChar)
  obtain ⟨q, hq⟩ := hpre
  have : (u.dropWhile isStripChar).head? = some c := by
    rw [← hq]
    cases hd : List.rdropWhile isStripChar (u.dropWhile isStripChar) with
    | nil => rw [hd] at h; simp at h
    | cons a t => rw [hd] at h; simp at h; simp [h]
  exact head?_dropWhile_not this

/-- The last character of `stripEdges` is not a colon, dash or whitespace. -/
theorem stripEdges_last {u : Str} {c : Char}
    (h : (stripEdges u).getLast? = some c) : isStripChar c = false := by
  rw [stripEdges_eq] at h
  have hne : List.rdropWhile isStripChar (u.dropWhile isStripChar) ≠ [] := by
    intro hnil; rw [hnil] at h; simp at h
  have hlast := List.rdropWhile_last_not isStripChar (u.dropWhile isStripChar) hne
  have : (List.rdropWhile isStripChar (u.dropWhile isStripChar)).getLast hne = c := by
    have := List.getLast?_eq_getLast _ hne
    rw [this] at h
    exact Option.some.injEq .. |>.mp h
  rw [this] at hlast
  simpa using hlast

/-- A string whose edges avoid the strip class is fixed by `stripEdges`. -/
theorem stripEdges_eq_self {t : Str}
    (hh : ∀ c, t.head? = some c → isStripChar c = false)
    (hl : ∀ c, t.getLast? = some c → isStripChar c = false) :
    stripEdges t = t := by
  have h1 : t.dropWhile isStripChar = t := by
    rw [List.dropWhile_eq_self_iff]
    intro hpos
    cases t with
    | nil => simp at hpos
    | cons a rest => simpa using hh a rfl
  rw [stripEdges_eq, h1, List.rdropWhile_eq_self_iff]
  intro hne
  have := hl (t.getLast hne) (List.getLast?_eq_getLast t hne)
  simp [this]

/-- A string whose edges are not whitespace is fixed by `trimStr`. -/
theorem trimStr_eq_self {t : Str}
    (hh : ∀ c, t.head? = some c → isWs c = false)
    (hl : ∀ c, t.getLast? = some c → isWs c = false) :
    trimStr t = t := by
  have h1 : t.dropWhile (fun c => isWs c) = t := by
    rw [List.dropWhile_eq_self_iff]
    intro hpos
    cases t with
    | nil => simp at hpos
    | cons a rest => simpa using hh a rfl
  rw [trimStr_eq, h1, List.rdropWhile_eq_self_iff]
  intro hne
  have := hl (t.getLast hne) (List.getLast?_eq_getLast t hne)
  simp [this]

/-- The final `.trim()` of `cleanValue` has nothing left to do. -/
theorem cleanValue_eq (s : Str) : cleanValue s = stripEdges (collapseWs s) := by
  unfold cleanValue
  apply trimStr_eq_self
  · intro c hc
    have := stripEdges_head hc
    cases hw : isWs c
    · rfl
    · exact absurd (isStripChar_of_isWs hw) (by simp [this])
  · intro c hc
    have := stripEdges_last hc
    cases hw : isWs c
    · rfl
    · exact absurd (isStripChar_of_isWs hw) (by simp [this])

/-- `stripEdges u` is a contiguous substring of `u`. -/
theorem stripEdges_isInfix (u : Str) : stripEdges u <:+: u := by
  rw [stripEdges_eq]
  have h1 : List.rdropWhile isStripChar (u.dropWhile isStripChar) <+:
      u.dropWhile isStripChar := List.rdropWhile_prefix _ _
  have h2 : u.dropWhile isStripChar <:+ u := List.dropWhile_suffix _
  exact h1.isInfix.trans h2.isInfix

/-- The output of `cleanValue` has single plain internal spaces and clean
edges. -/
theorem cleanValue_shape (s : Str) : cleanShape (cleanValue s) = true := by
  rw [cleanValue_eq]
  have hinf := stripEdges_isInfix (collapseWs s)
  have hws : wsCharsOk (stripEdges (collapseWs s)) = true :=
    wsCharsOk_of_subset (collapseRunsAux_wsCharsOk false s)
      (fun c hc => hinf.subset hc)
  have hadj : noAdjWs (stripEdges (collapseWs s)) = true :=
    noAdjWs_infix (collapseRunsAux_noAdjWs false s) hinf
  have hedge : edgeOk (stripEdges (collapseWs s)) = true := by
    unfold edgeOk
    refine Bool.and_eq_true .. |>.mpr ⟨?_, ?_⟩
    · cases hd : (stripEdges (collapseWs s)).head? with
      | none => rfl
      | some c => simp [stripEdges_head hd]
    · cases hd : (stripEdges (collapseWs s)).getLast? with
      | none => rfl
      | some c => simp [stripEdges_last hd]
  simp [cleanShape, hws, hadj, hedge]

/-- `cleanValue` is idempotent. -/
theorem cleanValue_idem (s : Str) : cleanValue (cleanValue s) = cleanValue s := by
  conv_lhs => rw [cleanValue_eq s]
  set t := stripEdges (collapseWs s) with ht
  have hws : wsCharsOk t = true :=
    wsCharsOk_of_subset (collapseRunsAux_wsCharsOk false s)
      (fun c hc => (stripEdges_isInfix (collapseWs s)).subset hc)
  have hadj : noAdjWs t = true :=
    noAdjWs_infix (collapseRunsAux_noAdjWs false s) (stripEdges_isInfix (collapseWs s))
  have hcoll : collapseWs t = t := (collapseRunsAux_fixed t hws hadj).1
  have hstrip : stripEdges t = t :=
    stripEdges_eq_self (fun c hc => stripEdges_head (ht ▸ hc))
      (fun c hc => stripEdges_last (ht ▸ hc))
  rw [cleanValue_eq t, hcoll, hstrip, cleanValue_eq s]

/-!
## Lemmas towards the confidence/value co-occurrence analysis
-/

theorem containsSub_mem_head {s : Str} {c : Char} {cs : Str}
    (h : containsSub s (c :: cs) = true) : c ∈ s := by
  induction s with
  | nil => simp [containsSub, List.isEmpty] at h
  | cons a rest ih =>
    simp only [containsSub, Bool.or_eq_true] at h
    rcases h with h | h
    · simp only [startsWithStr, Bool.and_eq_true, decide_eq_true_eq] at h
      exact h.1 ▸ List.mem_cons_self a rest
    · exact List.mem_cons_of_mem _ (ih h)

theorem isStripChar_cases {c : Char} (h : isStripChar c = true) :
    c = ':' ∨ c = '-' ∨ c = ' ' ∨ c = '\t' ∨ c = '\n' ∨ c = '\r' ∨
      c = '\x0b' ∨ c = '\x0c' := by
  simpa [isStripChar, isWs, or_assoc] using h

theorem isStripChar_toLower_self {c : Char} (h : isStripChar c = true) :
    c.toLower = c := by
  rcases isStripChar_cases h with rfl | rfl | rfl | rfl | rfl | rfl | rfl | rfl <;> decide

/-- If a character lowercases to something outside the strip class, it is
itself outside the strip class. -/
theorem not_strip_of_toLower {c d : Char} (hlow : c.toLower = d)
    (hd : isStripChar d = false) : isStripChar c = false := by
  cases hs : isStripChar c
  · rfl
  · exfalso
    rw [isStripChar_toLower_self hs] at hlow
    subst hlow
    rw [hs] at hd
    simp at hd

theorem twoLetterAt_mem {l : Str} :
    ∀ prev, twoLetterAt prev l = true → ∃ c ∈ l, isAsciiLetter c = true := by
  induction l with
  | nil => intro prev h; simp [twoLetterAt] at h
  | cons c1 t ih =>
    intro prev h
    cases t with
    | nil => simp [twoLetterAt] at h
    | cons c2 rest =>
      simp only [twoLetterAt, Bool.or_eq_true] at h
      rcases h with h | h
      · simp only [Bool.and_eq_true] at h
        exact ⟨c1, List.mem_cons_self _ _, h.1.1.1⟩
      · obtain ⟨c, hc, hlet⟩ := ih (some c1) h
        exact ⟨c, List.mem_cons_of_mem _ hc, hlet⟩

theorem isAsciiLetter_not_strip {c : Char} (h : isAsciiLetter c = true) :
    isStripChar c = false := by
  cases hs : isStripChar c
  · rfl
  · exfalso
    rcases isStripChar_cases hs with rfl | rfl | rfl | rfl | rfl | rfl | rfl | rfl <;>
      exact absurd h (by decide)

/-- A line passing `isLikelyLocation` keeps at least one character through
`cleanValue`. -/
theorem isLikelyLocation_clean_ne_nil {line : Str}
    (h : isLikelyLocation line = true) : cleanValue line ≠ [] := by
  simp only [isLikelyLocation, Bool.or_eq_true] at h
  have fromLower : ∀ d : Char, isStripChar d = false → d ∈ lowerStr line →
      cleanValue line ≠ [] := by
    intro d hd hmem
    obtain ⟨c0, hc0, hlow⟩ := List.mem_map.mp hmem
    exact cleanValue_ne_nil_of_mem (not_strip_of_toLower hlow hd) hc0
  rcases h with ((((h | h) | h) | h) | h) | h
  · exact fromLower ',' (by decide) (containsSub_mem_head h)
  · exact fromLower 'c' (by decide) (containsSub_mem_head h)
  · exact fromLower 's' (by decide) (containsSub_mem_head h)
  · exact fromLower 'c' (by decide) (containsSub_mem_head h)
  · exact fromLower 'r' (by decide) (containsSub_mem_head h)
  · obtain ⟨c, hc, hlet⟩ := twoLetterAt_mem none h
    exact cleanValue_ne_nil_of_mem (isAsciiLetter_not_strip hlet) hc

/-!
## Confidence bounds of the header-matching tiers
-/

theorem findPriorityMatchAux_conf {hs : List Str} :
    ∀ (ps : List Str) (n : Nat),
      (findPriorityMatchAux hs ps n).index ≠ -1 →
      (0.55 : ℚ) ≤ (findPriorityMatchAux hs ps n).confidence := by
  intro ps
  induction ps with
  | nil => intro n h; simp [findPriorityMatchAux] at h
  | cons p rest ih =>
    intro n h
    cases h1 : hs.findIdx? (fun x => x = p) with
    | none =>
      cases h2 : hs.findIdx? (fun x => containsSub x p) with
      | none =>
        rw [findPriorityMatchAux, h1, h2] at h ⊢
        exact ih (n + 1) h
      | some j =>
        rw [findPriorityMatchAux, h1, h2]
        have hmin : min ((n : ℚ) * 0.01) 0.1 ≤ 0.1 := min_le_right _ _
        have : (0.55 : ℚ) ≤ 0.88 - 0.1 := by norm_num
        simp only [HeaderMatch.confidence]
        linarith
    | some j =>
      rw [findPriorityMatchAux, h1]
      have hmin : min ((n : ℚ) * 0.01) 0.1 ≤ 0.1 := min_le_right _ _
      have : (0.55 : ℚ) ≤ 0.96 - 0.1 := by norm_num
      simp only [HeaderMatch.confidence]
      linarith

theorem findHeaderMatch_conf (fuzzy : FuzzyOracle) (headers aliases : List Str)
    (targetField : TargetField)
    (h : (findHeaderMatch fuzzy headers aliases targetField).index ≠ -1) :
    (0.55 : ℚ) ≤ (findHeaderMatch fuzzy headers aliases targetField).confidence := by
  set nh := headers.map normalizeFieldName with hnh
  set pp := if targetField = TargetField.location then LOCATION_PRIORITY else PLACE_PRIORITY
    with hpp
  by_cases hpref : (findPriorityMatch nh pp).index ≠ -1
  · rw [findHeaderMatch, ← hnh, ← hpp, if_pos hpref]
    exact findPriorityMatchAux_conf pp 0 hpref
  · cases h1 : nh.findIdx? (fun hh => aliases.any (fun a => hh = a)) with
    | some i =>
      rw [findHeaderMatch, ← hnh, ← hpp, if_neg hpref]
      simp only [h1]
      norm_num
    | none =>
      cases h2 : nh.findIdx? (fun hh => aliases.any (fun a => containsSub hh a)) with
      | some i =>
        rw [findHeaderMatch, ← hnh, ← hpp, if_neg hpref]
        simp only [h1, h2]
        norm_num
      | none =>
        cases h3 : (fuzzy headers).find? (fun m => m.targetField = targetField) with
        | none =>
          rw [findHeaderMatch, ← hnh, ← hpp, if_neg hpref] at h
          simp only [h1, h2, h3] at h
          simp at h
        | some m =>
          by_cases h4 : m.confidence < 0.55
          · rw [findHeaderMatch, ← hnh, ← hpp, if_neg hpref] at h
            simp only [h1, h2, h3] at h
            rw [if_pos h4] at h
            simp at h
          · cases h5 : headers.findIdx? (fun hh => hh = m.sourceField) with
            | none =>
              rw [findHeaderMatch, ← hnh, ← hpp, if_neg hpref] at h
              simp only [h1, h2, h3] at h
              rw [if_neg h4] at h
              simp only [h5] at h
              simp at h
            | some i =>
              rw [findHeaderMatch, ← hnh, ← hpp, if_neg hpref]
              simp only [h1, h2, h3]
              rw [if_neg h4]
              simp only [h5]
              exact le_of_not_lt h4

theorem readValueFromRow_ne_nil {row : List Cell} {index : Int}
    (h : readValueFromRow row index ≠ []) : index ≠ -1 := by
  intro hidx
  subst hidx
  rw [readValueFromRow, if_pos (Or.inl (by norm_num))] at h
  exact h rfl

/-- Both co-occurrence equivalences hold on the table path. -/
theorem extractFromTableData_inv (fuzzy : FuzzyOracle) (data : ParsedTableData) :
    ((extractFromTableData fuzzy data).placeName = [] ↔
      (extractFromTableData fuzzy data).placeConfidence = 0) ∧
    ((extractFromTableData fuzzy data).location = [] ↔
      (extractFromTableData fuzzy data).locationConfidence = 0) := by
  rw [extractFromTableData]
  by_cases hempty : data.headers.length = 0 ∨ data.rows.length = 0
  · rw [if_pos hempty]
    simp [emptyResult]
  · rw [if_neg hempty]
    dsimp only
    constructor
    · by_cases hp : readValueFromRow (getBestDataRow data.rows)
        (findHeaderMatch fuzzy data.headers PLACE_ALIASES TargetField.placeName).index = []
      · simp [hp]
      · have hidx := readValueFromRow_ne_nil hp
        have hconf := findHeaderMatch_conf fuzzy data.headers PLACE_ALIASES
          TargetField.placeName hidx
        constructor
        · intro h; exact absurd h hp
        · intro h
          rw [if_pos hp] at h
          exact absurd h (by intro h0; rw [h0] at hconf; norm_num at hconf)
    · by_cases hp : readValueFromRow (getBestDataRow data.rows)
        (findHeaderMatch fuzzy data.headers LOCATION_ALIASES TargetField.location).index = []
      · simp [hp]
      · have hidx := readValueFromRow_ne_nil hp
        have hconf := findHeaderMatch_conf fuzzy data.headers LOCATION_ALIASES
          TargetField.location hidx
        constructor
        · intro h; exact absurd h hp
        · intro h
          rw [if_pos hp] at h
          exact absurd h (by intro h0; rw [h0] at hconf; norm_num at hconf)

/-- The confidence written by a prefix-pattern assignment satisfies the
co-occurrence equivalence. -/
theorem prefix_conf_iff (v : Str) : (v = [] ↔ (if v ≠ [] then (0.9 : ℚ) else 0) = 0) := by
  by_cases hv : v = []
  · simp [hv]
  · rw [if_pos hv]
    constructor
    · intro h; exact absurd h hv
    · intro h; norm_num at h

/-- The inline early-return value has two non-empty fields at 0.88. -/
theorem inlineHit_spec {line : Str} {m : MetadataExtractionResult}
    (h : inlineHit line = some m) :
    m.placeName ≠ [] ∧ m.location ≠ [] ∧
      m.placeConfidence = 0.88 ∧ m.locationConfidence = 0.88 := by
  rw [inlineHit] at h
  cases hin : inlineMatch line with
  | none => rw [hin] at h; simp at h
  | some g =>
    rw [hin, Option.bind] at h
    dsimp only at h
    by_cases hboth : cleanValue g.1 ≠ [] ∧ trimStr (stripTrailingJunk (cleanValue g.2)) ≠ []
    · rw [if_pos hboth] at h
      cases h
      exact ⟨hboth.1, hboth.2, rfl, rfl⟩
    · rw [if_neg hboth] at h
      simp at h

theorem applyPlaceCapture_inv (line : Str) (st : ScanState)
    (h1 : st.placeName = [] ↔ st.placeConfidence = 0) :
    ((applyPlaceCapture line st).placeName = [] ↔
      (applyPlaceCapture line st).placeConfidence = 0) ∧
    (applyPlaceCapture line st).location = st.location ∧
    (applyPlaceCapture line st).locationConfidence = st.locationConfidence := by
  rw [applyPlaceCapture]
  by_cases hp : st.placeName = []
  · rw [if_pos hp]
    cases placePrefixCapture line with
    | none => exact ⟨h1, rfl, rfl⟩
    | some cap => exact ⟨prefix_conf_iff (cleanValue cap), rfl, rfl⟩
  · rw [if_neg hp]
    exact ⟨h1, rfl, rfl⟩

theorem applyLocationCapture_inv (line : Str) (st : ScanState)
    (h2 : st.location = [] ↔ st.locationConfidence = 0) :
    ((applyLocationCapture line st).location = [] ↔
      (applyLocationCapture line st).locationConfidence = 0) ∧
    (applyLocationCapture line st).placeName = st.placeName ∧
    (applyLocationCapture line st).placeConfidence = st.placeConfidence := by
  rw [applyLocationCapture]
  by_cases hp : st.location = []
  · rw [if_pos hp]
    cases locationPrefixCapture line with
    | none => exact ⟨h2, rfl, rfl⟩
    | some cap => exact ⟨prefix_conf_iff (cleanValue cap), rfl, rfl⟩
  · rw [if_neg hp]
    exact ⟨h2, rfl, rfl⟩

/-- Loop invariant of `extractFromText`'s line scan: the inline early return
carries two non-empty values at confidence 0.88, and otherwise both
co-occurrence equivalences are maintained. -/
theorem scanLines_inv :
    ∀ (lines : List Str) (st : ScanState),
      (st.placeName = [] ↔ st.placeConfidence = 0) →
      (st.location = [] ↔ st.locationConfidence = 0) →
      (match scanLines lines st with
        | .finished m => m.placeName ≠ [] ∧ m.location ≠ [] ∧
            m.placeConfidence = 0.88 ∧ m.locationConfidence = 0.88
        | .looped st' => (st'.placeName = [] ↔ st'.placeConfidence = 0) ∧
            (st'.location = [] ↔ st'.locationConfidence = 0)) := by
  intro lines
  induction lines with
  | nil => intro st h1 h2; exact ⟨h1, h2⟩
  | cons line rest ih =>
    intro st h1 h2
    rw [scanLines]
    cases hin : inlineHit line with
    | some m => exact inlineHit_spec hin
    | none =>
      have hstep1 := applyPlaceCapture_inv line st h1
      have hst2 : (applyPlaceCapture line st).location = [] ↔
          (applyPlaceCapture line st).locationConfidence = 0 := by
        rw [hstep1.2.1, hstep1.2.2]; exact h2
      have hstep2 := applyLocationCapture_inv line (applyPlaceCapture line st) hst2
      have hq1 : (applyLocationCapture line (applyPlaceCapture line st)).placeName = [] ↔
          (applyLocationCapture line (applyPlaceCapture line st)).placeConfidence = 0 := by
        rw [hstep2.2.1, hstep2.2.2]; exact hstep1.1
      dsimp only
      by_cases hdone :
        (applyLocationCapture line (applyPlaceCapture line st)).placeName ≠ [] ∧
        (applyLocationCapture line (applyPlaceCapture line st)).location ≠ []
      · rw [if_pos hdone]
        exact ⟨hq1, hstep2.1⟩
      · rw [if_neg hdone]
        exact ih _ hq1 hstep2.1

theorem applyPlaceFallback_spec (lines : List Str) (st : ScanState)
    (h1 : st.placeName = [] ↔ st.placeConfidence = 0) :
    ((applyPlaceFallback lines st).placeConfidence = 0 →
      (applyPlaceFallback lines st).placeName = []) ∧
    ((applyPlaceFallback lines st).placeName = [] →
      (applyPlaceFallback lines st).placeConfidence = 0 ∨
        (applyPlaceFallback lines st).placeConfidence = 0.55) ∧
    (applyPlaceFallback lines st).location = st.location ∧
    (applyPlaceFallback lines st).locationConfidence = st.locationConfidence := by
  rw [applyPlaceFallback]
  by_cases hp : st.placeName = []
  · rw [if_pos hp]
    cases lines.find? isLikelyPlaceName with
    | some likelyPlace =>
      refine ⟨?_, ?_, rfl, rfl⟩
      · intro h
        norm_num at h
      · intro _
        exact Or.inr rfl
    | none =>
      exact ⟨fun h => h1.mpr h, fun h => Or.inl (h1.mp h), rfl, rfl⟩
  · rw [if_neg hp]
    exact ⟨fun h => h1.mpr h, fun h => Or.inl (h1.mp h), rfl, rfl⟩

theorem applyLocationFallback_spec (lines : List Str) (st : ScanState)
    (h2 : st.location = [] ↔ st.locationConfidence = 0) :
    ((applyLocationFallback lines st).location = [] ↔
      (applyLocationFallback lines st).locationConfidence = 0) ∧
    (applyLocationFallback lines st).placeName = st.placeName ∧
    (applyLocationFallback lines st).placeConfidence = st.placeConfidence := by
  rw [applyLocationFallback]
  by_cases hl : st.location = []
  · rw [if_pos hl]
    cases hfind : lines.find? isLikelyLocation with
    | some likelyLocation =>
      have hlik : isLikelyLocation likelyLocation = true := List.find?_some hfind
      have hne := isLikelyLocation_clean_ne_nil hlik
      refine ⟨?_, rfl, rfl⟩
      constructor
      · intro h
        exact absurd h hne
      · intro h
        norm_num at h
    | none => exact ⟨h2, rfl, rfl⟩
  · rw [if_neg hl]
    exact ⟨h2, rfl, rfl⟩

/-- The three co-occurrence facts that hold on the free-text path. -/
theorem extractFromText_props (text : Str) :
    ((extractFromText text).location = [] ↔ (extractFromText text).locationConfidence = 0) ∧
    ((extractFromText text).placeConfidence = 0 → (extractFromText text).placeName = []) ∧
    ((extractFromText text).placeName = [] →
      (extractFromText text).placeConfidence = 0 ∨
        (extractFromText text).placeConfidence = 0.55) := by
  rw [extractFromText]
  set lines := ((splitRN text).map trimStr).filter (fun l => l ≠ []) with hlines
  have hinv := scanLines_inv lines ⟨[], [], 0, 0⟩ (by simp) (by simp)
  cases hscan : scanLines lines ⟨[], [], 0, 0⟩ with
  | finished m =>
    rw [hscan] at hinv
    dsimp only
    refine ⟨?_, ?_, ?_⟩
    · constructor
      · intro h
        exact absurd h hinv.2.1
      · intro h
        rw [hinv.2.2.2] at h
        norm_num at h
    · intro h
      rw [hinv.2.2.1] at h
      norm_num at h
    · intro h
      exact absurd h hinv.1
  | looped st =>
    rw [hscan] at hinv
    dsimp only
    have hfb1 := applyPlaceFallback_spec lines st hinv.1
    have hiff2 : (applyPlaceFallback lines st).location = [] ↔
        (applyPlaceFallback lines st).locationConfidence = 0 := by
      rw [hfb1.2.2.1, hfb1.2.2.2]
      exact hinv.2
    have hfb2 := applyLocationFallback_spec lines (applyPlaceFallback lines st) hiff2
    refine ⟨hfb2.1, ?_, ?_⟩
    · intro h
      rw [hfb2.2.2] at h
      rw [hfb2.2.1]
      exact hfb1.1 h
    · intro h
      rw [hfb2.2.1] at h
      rw [hfb2.2.2]
      exact hfb1.2.1 h

/-- The corrected co-occurrence contract: the location equivalence in full,
and for the place side the two implications that survive the likely-place
fallback. -/
def ccProps (r : MetadataExtractionResult) : Prop :=
  (r.location = [] ↔ r.locationConfidence = 0) ∧
  (r.placeConfidence = 0 → r.placeName = []) ∧
  (r.placeName = [] → r.placeConfidence = 0 ∨ r.placeConfidence = 0.55)

theorem ccProps_of_iff {r : MetadataExtractionResult}
    (h1 : r.placeName = [] ↔ r.placeConfidence = 0)
    (h2 : r.location = [] ↔ r.locationConfidence = 0) : ccProps r :=
  ⟨h2, fun h => h1.mpr h, fun h => Or.inl (h1.mp h)⟩

theorem ccProps_of_text (text : Str) : ccProps (extractFromText text) := by
  have h := extractFromText_props text
  exact ⟨h.1, h.2.1, h.2.2⟩

theorem extractMetadataFromContent_ccProps (fuzzy : FuzzyOracle)
    (input : ExtractInput) : ccProps (extractMetadataFromContent fuzzy input) := by
  cases input with
  | table data =>
    rw [extractMetadataFromContent]
    by_cases hfound : (extractFromTableData fuzzy data).placeName ≠ [] ∨
        (extractFromTableData fuzzy data).location ≠ []
    · rw [if_pos hfound]
      have h := extractFromTableData_inv fuzzy data
      exact ccProps_of_iff h.1 h.2
    · rw [if_neg hfound]
      cases data.ocrText with
      | some ocr =>
        dsimp only
        by_cases hocr : ocr ≠ []
        · rw [if_pos hocr]
          exact ccProps_of_text ocr
        · rw [if_neg hocr]
          exact ccProps_of_text _
      | none => exact ccProps_of_text _
  | str s => exact ccProps_of_text s
  | arrObj first rest =>
    have h := extractFromTableData_inv fuzzy
      { headers := first.map Prod.fst
        rows := [first.map Prod.snd]
        rowCount := 1
        columnCount := (first.map Prod.fst).length
        sourceType := some "json".toList
        ocrText := none }
    exact ccProps_of_iff h.1 h.2
  | record kvs =>
    have h := extractFromTableData_inv fuzzy
      { headers := kvs.map Prod.fst
        rows := [kvs.map Prod.snd]
        rowCount := 1
        columnCount := (kvs.map Prod.fst).length
        sourceType := some "json".toList
        ocrText := none }
    exact ccProps_of_iff h.1 h.2
  | other =>
    refine ⟨by simp [extractMetadataFromContent, emptyResult], ?_, ?_⟩
    · intro _
      rfl
    · intro _
      exact Or.inl rfl

/-!
## Characterisation of the priority matching order (C5)
-/

theorem startsWithStr_refl (s : Str) : startsWithStr s s = true := by
  induction s with
  | nil => rfl
  | cons c rest ih => simp [startsWithStr, ih]

theorem containsSub_self (s : Str) : containsSub s s = true := by
  cases s with
  | nil => rfl
  | cons c rest => simp [containsSub, startsWithStr_refl]

/-- One token of the priority walk: if every earlier token has no hit at all
and this token has a (substring) hit somewhere, the walk stops at this token,
preferring its first exact header over its first substring header. -/
theorem findPriorityMatchAux_spec (hs : List Str) :
    ∀ (ps : List Str) (n i : Nat) (p : Str),
      ps[i]? = some p →
      (∀ k q, k < i → ps[k]? = some q → hs.any (fun h => containsSub h q) = false) →
      hs.any (fun h => containsSub h p) = true →
      findPriorityMatchAux hs ps n =
        (match hs.findIdx? (fun h => h = p) with
          | some j => ⟨j, 0.96 - min (((n + i : Nat) : ℚ) * 0.01) 0.1⟩
          | none =>
            match hs.findIdx? (fun h => containsSub h p) with
            | some j => ⟨j, 0.88 - min (((n + i : Nat) : ℚ) * 0.01) 0.1⟩
            | none => ⟨-1, 0⟩) := by
  intro ps
  induction ps with
  | nil =>
    intro n i p hp _ _
    simp at hp
  | cons q rest ih =>
    intro n i p hp hprev hhit
    cases i with
    | zero =>
      simp only [List.getElem?_cons_zero, Option.some.injEq] at hp
      subst hp
      rw [findPriorityMatchAux]
      cases h1 : hs.findIdx? (fun h => h = q) with
      | some j => simp [h1]
      | none =>
        cases h2 : hs.findIdx? (fun h => containsSub h q) with
        | some j => simp [h1, h2]
        | none =>
          exfalso
          rw [List.findIdx?_eq_none_iff] at h2
          rcases List.any_eq_true.mp hhit with ⟨x, hx, hpx⟩
          have h3 := h2 x hx
          simp only at h3
          rw [hpx] at h3
          simp at h3
    | succ i' =>
      simp only [List.getElem?_cons_succ] at hp
      have hq0 : hs.any (fun h => containsSub h q) = false :=
        hprev 0 q (Nat.succ_pos i') (by simp)
      have hsub : hs.findIdx? (fun h => containsSub h q) = none := by
        rw [List.findIdx?_eq_none_iff]
        intro x hx
        cases hcx : containsSub x q
        · rfl
        · exfalso
          have : hs.any (fun h => containsSub h q) = true :=
            List.any_eq_true.mpr ⟨x, hx, hcx⟩
          rw [hq0] at this
          simp at this
      have hex : hs.findIdx? (fun h => h = q) = none := by
        rw [List.findIdx?_eq_none_iff]
        intro x hx
        cases hcx : (x = q : Bool)
        · simp
        · exfalso
          have hxq : x = q := by simpa using hcx
          subst hxq
          have : hs.any (fun h => containsSub h x) = true :=
            List.any_eq_true.mpr ⟨x, hx, containsSub_self x⟩
          rw [hq0] at this
          simp at this
      rw [findPriorityMatchAux, hex, hsub]
      have hshift : ∀ k q', k < i' → rest[k]? = some q' →
          hs.any (fun h => containsSub h q') = false := by
        intro k q' hk hkq
        exact hprev (k + 1) q' (Nat.succ_lt_succ hk) (by simpa using hkq)
      have := ih (n + 1) i' p hp hshift hhit
      rw [this]
      have harith : n + 1 + i' = n + (i' + 1) := by omega
      rw [harith]

/-!
## The best-data-row selection (C8)
-/

/-- The greatest non-blank cell count over the rows. -/
def maxCount (rows : List (List Cell)) : Nat :=
  (rows.map nonEmptyValueCount).foldr max 0

theorem maxCount_cons (x : List Cell) (xs : List (List Cell)) :
    maxCount (x :: xs) = max (nonEmptyValueCount x) (maxCount xs) := rfl

/-- The head of the stable descending sort is the first row attaining the
maximal non-blank cell count. -/
theorem sortByCountDesc_head_spec :
    ∀ rows : List (List Cell), rows ≠ [] →
      ∃ h t, sortByCountDesc rows = h :: t ∧
        nonEmptyValueCount h = maxCount rows ∧
        rows.find? (fun r => nonEmptyValueCount r == maxCount rows) = some h := by
  intro rows
  induction rows with
  | nil => intro h; exact absurd rfl h
  | cons x xs ih =>
    intro _
    cases hxs : xs with
    | nil =>
      refine ⟨x, [], rfl, ?_, ?_⟩
      · simp [maxCount, nonEmptyValueCount]
      · have : (nonEmptyValueCount x == maxCount [x]) = true := by
          simp [maxCount]
        simp [List.find?, this]
    | cons y ys =>
      obtain ⟨h, t, hsort, hmax, hfind⟩ := ih (by simp [hxs])
      rw [← hxs] at *
      rw [sortByCountDesc, hsort]
      by_cases hle : nonEmptyValueCount h ≤ nonEmptyValueCount x
      · refine ⟨x, h :: t, ?_, ?_, ?_⟩
        · rw [insertByCountDesc, if_pos hle]
        · rw [maxCount_cons, ← hmax]
          exact (Nat.max_eq_left hle).symm ▸ rfl
        · have hxmax : nonEmptyValueCount x = maxCount (x :: xs) := by
            rw [maxCount_cons, ← hmax]
            exact (Nat.max_eq_left hle).symm
          rw [List.find?]
          have : (nonEmptyValueCount x == maxCount (x :: xs)) = true := by
            simp [hxmax]
          rw [this]
      · have hlt : nonEmptyValueCount x < nonEmptyValueCount h := Nat.lt_of_not_le hle
        have hmaxeq : maxCount (x :: xs) = maxCount xs := by
          rw [maxCount_cons]
          exact Nat.max_eq_right (Nat.le_of_lt (hmax ▸ hlt))
        refine ⟨h, insertByCountDesc x t, ?_, ?_, ?_⟩
        · rw [insertByCountDesc, if_neg hle]
        · rw [hmaxeq, hmax]
        · rw [List.find?]
          have : (nonEmptyValueCount x == maxCount (x :: xs)) = false := by
            rw [hmaxeq, ← hmax]
            simp
            omega
          rw [this, hmaxeq]
          exact hfind

/-!
## Validation lemmas (C4, C7, C9)
-/

theorem startsWithStr_nil (s : Str) : startsWithStr s [] = true := by
  cases s <;> rfl

theorem startsWithStr_append {pat a : Str} (b : Str)
    (h : startsWithStr a pat = true) : startsWithStr (a ++ b) pat = true := by
  induction pat generalizing a with
  | nil => exact startsWithStr_nil _
  | cons p ps ih =>
    cases a with
    | nil => simp [startsWithStr] at h
    | cons c cs =>
      simp only [startsWithStr, Bool.and_eq_true] at h
      simp only [List.cons_append, startsWithStr, Bool.and_eq_true]
      exact ⟨h.1, ih h.2⟩

theorem containsSub_nil_pat (s : Str) : containsSub s [] = true := by
  cases s <;> simp [containsSub, startsWithStr, List.isEmpty]

theorem containsSub_append_left {a : Str} (b : Str) {pat : Str}
    (h : containsSub a pat = true) : containsSub (a ++ b) pat = true := by
  induction a with
  | nil =>
    simp only [containsSub] at h
    have : pat = [] := by simpa [List.isEmpty_iff] using h
    subst this
    simp [containsSub_nil_pat]
  | cons c cs ih =>
    simp only [containsSub, Bool.or_eq_true] at h
    simp only [List.cons_append, containsSub, Bool.or_eq_true]
    rcases h with h | h
    · exact Or.inl (startsWithStr_append b h)
    · exact Or.inr (ih h)

theorem notSupportedMsg_ne_sizeErrorMsg (fmts : List FileFormat) (m s : Nat) :
    notSupportedMsg fmts ≠ sizeErrorMsg m s := by
  intro h
  have e1 : (notSupportedMsg fmts)[5]? = some 'f' := rfl
  have e2 : (sizeErrorMsg m s)[5]? = some 's' := rfl
  have h5 := congrArg (fun l => l[5]?) h
  simp only at h5
  rw [e1, e2] at h5
  exact absurd h5 (by decide)

theorem notSupportedMsg_ne_emptyFileMsg (fmts : List FileFormat) :
    notSupportedMsg fmts ≠ emptyFileMsg := by
  intro h
  have e1 : (notSupportedMsg fmts)[5]? = some 'f' := rfl
  have e2 : (emptyFileMsg : Str)[5]? = some 'i' := rfl
  have h5 := congrArg (fun l => l[5]?) h
  simp only at h5
  rw [e1, e2] at h5
  exact absurd h5 (by decide)

theorem validateE_errors (P : EnhancedFileParser) (file : JFile) :
    (P.validate file).errors =
      (if P.maxFileSize < file.size then [sizeErrorMsg P.maxFileSize file.size] else []) ++
      (if file.size = 0 then [emptyFileMsg] else []) ++
      (if (findFormatE P file).isNone then [notSupportedMsg P.supportedFormats] else []) := rfl

theorem validateF_errors (P : FileParser) (file : JFile) :
    (P.validate file).errors =
      (if P.maxFileSize < file.size then [sizeErrorMsg P.maxFileSize file.size] else []) ++
      (if file.size = 0 then [emptyFileMsg] else []) ++
      (if (findFormatF P file).isNone then [notSupportedMsg P.supportedFormats] else []) := rfl

/-- The format error appears in an error list exactly when the format search
came up empty (shared shape of both `validate` bodies). -/
theorem mem_notSupported_iff (fmts : List FileFormat) (m s : Nat)
    (c1 c2 c3 : Prop) [Decidable c1] [Decidable c2] [Decidable c3] :
    notSupportedMsg fmts ∈
      ((if c1 then [sizeErrorMsg m s] else []) ++
        (if c2 then [emptyFileMsg] else []) ++
        (if c3 then [notSupportedMsg fmts] else [])) ↔ c3 := by
  have hne1 := notSupportedMsg_ne_sizeErrorMsg fmts m s
  have hne2 := notSupportedMsg_ne_emptyFileMsg fmts
  split_ifs with h1 h2 h3 <;>
    simp [List.mem_append, List.mem_singleton, hne1, hne2, *]

/-- The custom-validator guard as a proposition. -/
theorem validatorHit_iff (fmt : FileFormat) (file : JFile) :
    (match fmt.validator with | some v => v file | none => false) = true ↔
      ∃ v, fmt.validator = some v ∧ v file = true := by
  cases hv : fmt.validator with
  | none =>
    simp only
    constructor
    · intro h; simp at h
    · rintro ⟨v, hv2, _⟩; simp [hv] at hv2
  | some v =>
    simp only
    constructor
    · intro h; exact ⟨v, rfl, h⟩
    · rintro ⟨v', hv2, hvf⟩
      cases hv2
      exact hvf

theorem findFormatE_ne_none_iff (P : EnhancedFileParser) (file : JFile) :
    findFormatE P file ≠ none ↔
      ∃ fmt ∈ P.supportedFormats,
        lowerStr fmt.extension = lowerStr (getFileExtension file.name) ∧
          (fmt.mimeType = file.type ∨ ∃ v, fmt.validator = some v ∧ v file = true) := by
  rw [findFormatE]
  rw [Ne, List.find?_eq_none]
  push_neg
  constructor
  · rintro ⟨fmt, hmem, hp⟩
    rw [Bool.and_eq_true, Bool.or_eq_true] at hp
    refine ⟨fmt, hmem, by simpa using hp.1, ?_⟩
    rcases hp.2 with h | h
    · exact Or.inl (by simpa using h)
    · exact Or.inr ((validatorHit_iff fmt file).mp h)
  · rintro ⟨fmt, hmem, hext, hrest⟩
    refine ⟨fmt, hmem, ?_⟩
    rw [Bool.and_eq_true, Bool.or_eq_true]
    refine ⟨by simpa using hext, ?_⟩
    rcases hrest with h | h
    · exact Or.inl (by simpa using h)
    · exact Or.inr ((validatorHit_iff fmt file).mpr h)

theorem findFormatF_ne_none_iff (P : FileParser) (file : JFile) :
    findFormatF P file ≠ none ↔
      ∃ fmt ∈ P.supportedFormats,
        (lowerStr fmt.extension = lowerStr (getFileExtension file.name) ∧
          fmt.mimeType = file.type) ∨
          ∃ v, fmt.validator = some v ∧ v file = true := by
  rw [findFormatF]
  rw [Ne, List.find?_eq_none]
  push_neg
  constructor
  · rintro ⟨fmt, hmem, hp⟩
    rw [Bool.or_eq_true, Bool.and_eq_true] at hp
    refine ⟨fmt, hmem, ?_⟩
    rcases hp with h | h
    · exact Or.inl ⟨by simpa using h.1, by simpa using h.2⟩
    · exact Or.inr ((validatorHit_iff fmt file).mp h)
  · rintro ⟨fmt, hmem, hrest⟩
    refine ⟨fmt, hmem, ?_⟩
    rw [Bool.or_eq_true, Bool.and_eq_true]
    rcases hrest with ⟨h1, h2⟩ | h
    · exact Or.inl ⟨by simpa using h1, by simpa using h2⟩
    · exact Or.inr ((validatorHit_iff fmt file).mpr h)

/-!
## Envelope invariants of the extractors (C3)
-/

/-- The full invariant: consistent row count and rectangular rows. -/
def tableInv (t : ParsedTableData) : Prop :=
  t.rowCount = t.rows.length ∧ ∀ row ∈ t.rows, row.length = t.columnCount

theorem createTextData_inv (text : Str) (sourceType : Str) :
    tableInv (createTextData text sourceType) := by
  constructor
  · simp [createTextData]
  · intro row hrow
    simp only [createTextData, List.mem_map] at hrow
    obtain ⟨line, _, rfl⟩ := hrow
    rfl

theorem parseCSV_inv {env : ParseEnv} {t : ParsedTableData}
    (h : parseCSV env = .ok t) : tableInv t := by
  rw [parseCSV] at h
  cases henv : env.csv with
  | error msg => rw [henv] at h; simp at h
  | ok r =>
    rw [henv] at h
    cases h
    constructor
    · simp
    · intro row hrow
      simp only [List.mem_map] at hrow
      obtain ⟨rec, _, rfl⟩ := hrow
      simp

theorem parseExcel_inv {env : ParseEnv} {t : ParsedTableData}
    (h : parseExcel env = .ok t) :
    t.rowCount = t.rows.length ∧ t.sourceType = some "excel".toList := by
  rw [parseExcel] at h
  cases henv : env.excel with
  | error e =>
    rw [henv] at h
    simp [Bind.bind, Except.bind] at h
  | ok jsonData =>
    rw [henv] at h
    simp only [Bind.bind, Except.bind] at h
    by_cases hlen : jsonData.length = 0
    · rw [if_pos hlen] at h
      simp at h
    · rw [if_neg hlen] at h
      cases h
      exact ⟨rfl, rfl⟩

theorem parsePDF_inv {env : ParseEnv} {t : ParsedTableData}
    (h : parsePDF env = .ok t) : tableInv t := by
  rw [parsePDF] at h
  by_cases hdom : env.hasDom = false
  · rw [if_pos hdom] at h
    simp at h
  · rw [if_neg hdom] at h
    cases henv : env.pdfPages with
    | error e =>
      rw [henv] at h
      simp [Bind.bind, Except.bind] at h
    | ok pages =>
      rw [henv] at h
      simp only [Bind.bind, Except.bind] at h
      by_cases htext :
        trimStr (joinSep "\n".toList ((pages.map extractNativePdfText).filter
          (fun t => t ≠ []))) = []
      · rw [if_pos htext] at h
        simp at h
      · rw [if_neg htext] at h
        cases h
        exact createTextData_inv _ _

theorem parseImage_inv {env : ParseEnv} {t : ParsedTableData}
    (h : parseImage env = .ok t) : tableInv t := by
  rw [parseImage] at h
  cases hw : env.ocrWorker with
  | error e => rw [hw] at h; simp [Bind.bind, Except.bind] at h
  | ok u =>
    rw [hw] at h
    cases hr : env.ocrText with
    | error e => rw [hr] at h; simp [Bind.bind, Except.bind] at h
    | ok data =>
      rw [hr] at h
      simp only [Bind.bind, Except.bind] at h
      by_cases htext : (data.map trimStr).getD [] = []
      · rw [if_pos htext] at h
        simp at h
      · rw [if_neg htext] at h
        cases h
        exact createTextData_inv _ _

theorem parseText_inv {env : ParseEnv} {t : ParsedTableData}
    (h : parseText env = .ok t) : tableInv t := by
  rw [parseText] at h
  cases hr : env.textContent with
  | error e => rw [hr] at h; simp [Bind.bind, Except.bind] at h
  | ok text =>
    rw [hr] at h
    simp only [Bind.bind, Except.bind] at h
    cases h
    exact createTextData_inv _ _

theorem parseJSONFallback_inv {data : Js} {t : ParsedTableData}
    (h : parseJSONFallback data = .ok t) : tableInv t := by
  rw [parseJSONFallback.eq_def] at h
  cases hk : objectKeys data with
  | error e => rw [hk] at h; simp [Bind.bind, Except.bind] at h
  | ok keys =>
    rw [hk] at h
    simp only [Bind.bind, Except.bind] at h
    cases hn : keys.findSome? (fun key =>
      match jsGetVal data key with
      | some (.arr (v :: vs)) => if v.isObjectType then some (v :: vs) else none
      | _ => none) with
    | some nestedRows =>
      rw [hn] at h
      dsimp only at h
      cases hk2 : objectKeys (nestedRows.headD .null) with
      | error e => rw [hk2] at h; simp [Bind.bind, Except.bind] at h
      | ok headers =>
        rw [hk2] at h
        simp only [Bind.bind, Except.bind] at h
        cases h
        constructor
        · simp
        · intro row hrow
          simp only [List.mem_map] at hrow
          obtain ⟨item, _, rfl⟩ := hrow
          simp
    | none =>
      rw [hn] at h
      cases data with
      | obj kvs =>
        dsimp only at h
        cases h
        constructor
        · simp
        · intro row hrow
          rw [List.mem_singleton] at hrow
          subst hrow
          simp
      | null => dsimp only at h; simp at h
      | str s => dsimp only at h; simp at h
      | num n => dsimp only at h; simp at h
      | bool b => dsimp only at h; simp at h
      | arr elems => dsimp only at h; simp at h

theorem parseJSON_inv {env : ParseEnv} {t : ParsedTableData}
    (h : parseJSON env = .ok t) : tableInv t := by
  rw [parseJSON] at h
  cases hv : env.jsonValue with
  | error e => rw [hv] at h; simp [Bind.bind, Except.bind] at h
  | ok data =>
    rw [hv] at h
    simp only [Bind.bind, Except.bind] at h
    cases data with
    | arr elems =>
      cases elems with
      | nil => exact parseJSONFallback_inv h
      | cons first rest =>
        dsimp only at h
        by_cases hobj : first.isObjectType = true
        · rw [if_pos hobj] at h
          cases hk : objectKeys first with
          | error e => rw [hk] at h; simp [Bind.bind, Except.bind] at h
          | ok headers =>
            rw [hk] at h
            simp only [Bind.bind, Except.bind] at h
            cases h
            constructor
            · simp
            · intro row hrow
              simp only [List.mem_map] at hrow
              obtain ⟨o, _, rfl⟩ := hrow
              simp
        · rw [if_neg hobj] at h
          exact parseJSONFallback_inv h
    | null => exact parseJSONFallback_inv h
    | str s => exact parseJSONFallback_inv h
    | num n => exact parseJSONFallback_inv h
    | bool b => exact parseJSONFallback_inv h
    | obj kvs => exact parseJSONFallback_inv h

/-!
## Dispatch-level lemmas (C1, C3, C6)
-/

theorem dispatchExtractor_inv {ext : Str} {env : ParseEnv} {t : ParsedTableData}
    (h : (dispatchExtractor ext env).1 = .ok t) :
    t.rowCount = t.rows.length ∧
      (t.sourceType ≠ some "excel".toList → ∀ row ∈ t.rows, row.length = t.columnCount) := by
  rw [dispatchExtractor] at h
  split_ifs at h with h1 h2 h3 h4 h5 h6
  · have := parseCSV_inv h
    exact ⟨this.1, fun _ => this.2⟩
  · have := parseExcel_inv h
    exact ⟨this.1, fun hne => absurd this.2 hne⟩
  · have := parsePDF_inv h
    exact ⟨this.1, fun _ => this.2⟩
  · have := parseJSON_inv h
    exact ⟨this.1, fun _ => this.2⟩
  · have := parseText_inv h
    exact ⟨this.1, fun _ => this.2⟩
  · have := parseImage_inv h
    exact ⟨this.1, fun _ => this.2⟩

/-- The `.pdf` branch of the dispatch never touches the OCR worker. -/
theorem dispatchExtractor_pdf (env : ParseEnv) :
    dispatchExtractor "pdf".toList env = (parsePDF env, 0) := rfl

/-!
## Whitespace-only PDF text layers (C6)
-/

theorem mem_joinSep {c : Char} {sep : Str} :
    ∀ {parts : List Str}, c ∈ joinSep sep parts →
      c ∈ sep ∨ ∃ part ∈ parts, c ∈ part := by
  intro parts
  induction parts with
  | nil => intro h; simp [joinSep] at h
  | cons x xs ih =>
    intro h
    cases xs with
    | nil =>
      exact Or.inr ⟨x, List.mem_singleton.mpr rfl, h⟩
    | cons y ys =>
      rw [show joinSep sep (x :: y :: ys) = x ++ sep ++ joinSep sep (y :: ys) from rfl] at h
      rcases List.mem_append.mp h with h | h
      · rcases List.mem_append.mp h with h | h
        · exact Or.inr ⟨x, List.mem_cons_self _ _, h⟩
        · exact Or.inl h
      · rcases ih h with h | ⟨part, hp, hc⟩
        · exact Or.inl h
        · exact Or.inr ⟨part, List.mem_cons_of_mem _ hp, hc⟩

theorem mem_collapseRunsAux_cases {p : Char → Bool} {rep c : Char} :
    ∀ {b : Bool} {s : Str}, c ∈ collapseRunsAux p rep b s → c = rep ∨ c ∈ s := by
  intro b s
  induction s generalizing b with
  | nil => intro h; simp [collapseRunsAux] at h
  | cons a rest ih =>
    intro h
    rw [collapseRunsAux] at h
    by_cases ha : p a = true
    · rw [if_pos ha] at h
      cases b with
      | true =>
        rw [if_pos rfl] at h
        rcases ih h with h | h
        · exact Or.inl h
        · exact Or.inr (List.mem_cons_of_mem _ h)
      | false =>
        rw [if_neg (by simp)] at h
        rcases List.mem_cons.mp h with rfl | h
        · exact Or.inl rfl
        · rcases ih h with h | h
          · exact Or.inl h
          · exact Or.inr (List.mem_cons_of_mem _ h)
    · rw [if_neg ha] at h
      rcases List.mem_cons.mp h with rfl | h
      · exact Or.inr (List.mem_cons_self _ _)
      · rcases ih h with h | h
        · exact Or.inl h
        · exact Or.inr (List.mem_cons_of_mem _ h)

/-- A whitespace-only string is trimmed and collapsed to nothing. -/
theorem trimStr_collapseWs_of_allWs {s : Str} (h : ∀ c ∈ s, isWs c = true) :
    trimStr (collapseWs s) = [] := by
  have hall : ∀ c ∈ collapseWs s, isWs c = true := by
    intro c hc
    rcases mem_collapseRunsAux_cases hc with rfl | hc2
    · rfl
    · exact h c hc2
  have hdrop : (collapseWs s).dropWhile (fun c => isWs c) = [] := by
    rw [List.dropWhile_eq_nil_iff]
    exact hall
  rw [trimStr_eq, hdrop]
  simp [List.rdropWhile]

/-- A page whose text items are all whitespace yields no native text. -/
theorem extractNativePdfText_allWs {items : List (Option Str)}
    (h : ∀ it ∈ items, ∀ c ∈ it.getD [], isWs c = true) :
    extractNativePdfText items = [] := by
  rw [extractNativePdfText]
  apply trimStr_collapseWs_of_allWs
  intro c hc
  rcases mem_joinSep hc with hsep | ⟨part, hp, hcpart⟩
  · rcases List.mem_singleton.mp (by simpa using hsep) with rfl
    rfl
  · rcases List.mem_map.mp hp with ⟨it, hit, rfl⟩
    exact h it hit c hcpart

/-- A PDF whose whole native text layer is whitespace fails with the
no-readable-text error. -/
theorem parsePDF_allWs {env : ParseEnv} {pages : List (List (Option Str))}
    (hdom : env.hasDom = true)
    (hpages : env.pdfPages = .ok pages)
    (hws : ∀ page ∈ pages, ∀ it ∈ page, ∀ c ∈ it.getD [], isWs c = true) :
    parsePDF env = .error (some "No readable native text found in PDF".toList) := by
  rw [parsePDF, if_neg (by simp [hdom]), hpages]
  simp only [Bind.bind, Except.bind]
  have hmap : (pages.map extractNativePdfText).filter (fun t => t ≠ []) = [] := by
    rw [List.filter_eq_nil_iff]
    intro a ha
    rcases List.mem_map.mp ha with ⟨page, hpage, rfl⟩
    simp [extractNativePdfText_allWs (hws page hpage)]
  rw [hmap]
  rfl

/-!
## Claim theorems
-/

/-- C2 (counterexample): on the input string `---` the extractor returns an
empty `placeName` with `placeConfidence` 0.55, so the claimed equivalence
`placeName == "" ⟺ placeConfidence == 0` fails. -/
theorem C2_counterexample :
    (extractMetadataFromContent noFuzzy (.str "---".toList)).placeName = [] ∧
    (extractMetadataFromContent noFuzzy (.str "---".toList)).placeConfidence = 0.55 ∧
    ¬((extractMetadataFromContent noFuzzy (.str "---".toList)).placeName = [] ↔
      (extractMetadataFromContent noFuzzy (.str "---".toList)).placeConfidence = 0) := by
  have h1 : (extractMetadataFromContent noFuzzy (.str "---".toList)).placeName = [] := by
    decide
  have h2 : (extractMetadataFromContent noFuzzy
      (.str "---".toList)).placeConfidence = 0.55 := rfl
  refine ⟨h1, h2, ?_⟩
  intro hiff
  have h0 := hiff.mp h1
  rw [h2] at h0
  norm_num at h0

/-- C2 (amended): for every input, `location == "" ⟺ locationConfidence == 0`
holds; on the place side `placeConfidence == 0` still implies
`placeName == ""`, but an empty `placeName` may carry confidence 0.55 when the
likely-place fallback line cleans to the empty string. -/
theorem C2_amended_cooccurrence (fuzzy : FuzzyOracle) (input : ExtractInput) :
    ccProps (extractMetadataFromContent fuzzy input) :=
  extractMetadataFromContent_ccProps fuzzy input

/-- C2 (witness): the amended contract evaluated at a concrete input. -/
theorem C2_witness : ccProps (extractMetadataFromContent noFuzzy (.str "---".toList)) :=
  C2_amended_cooccurrence noFuzzy (.str "---".toList)

/-- C5 (counterexample): with normalized headers `[my_city, location]` the
header `location` is exactly equal to the priority token at index 1, yet the
walk reports the substring match on the earlier token `city` with confidence
`0.88 − min(0×0.01, 0.1)` instead of an exact-match score. -/
theorem C5_counterexample :
    "location".toList ∈ ["my_city".toList, "location".toList] ∧
    LOCATION_PRIORITY[1]? = some "location".toList ∧
    findPriorityMatch ["my_city".toList, "location".toList] LOCATION_PRIORITY =
      ⟨0, 0.88 - min (((0 : Nat) : ℚ) * 0.01) 0.1⟩ ∧
    (0.88 - min (((0 : Nat) : ℚ) * 0.01) 0.1 : ℚ) ≠
      0.96 - min (((1 : Nat) : ℚ) * 0.01) 0.1 := by
  refine ⟨by decide, by decide, rfl, by norm_num⟩

/-- C5 (amended): the walk goes token by token through the priority list; for
the first token that occurs in any header (as equal or substring), the exact
pass over all headers is tried and only then the substring pass for that same
token — so a substring hit on an earlier token wins over an exact hit on a
later one.  Scores are `0.96 − min(i×0.01, 0.1)` (exact) and
`0.88 − min(i×0.01, 0.1)` (substring) at the winning token index `i`. -/
theorem C5_amended_priority_walk (hs ps : List Str) (i : Nat) (p : Str)
    (hp : ps[i]? = some p)
    (hprev : ∀ k q, k < i → ps[k]? = some q →
      hs.any (fun h => containsSub h q) = false)
    (hhit : hs.any (fun h => containsSub h p) = true) :
    findPriorityMatch hs ps =
      (match hs.findIdx? (fun h => h = p) with
        | some j => ⟨j, 0.96 - min ((i : ℚ) * 0.01) 0.1⟩
        | none =>
          match hs.findIdx? (fun h => containsSub h p) with
          | some j => ⟨j, 0.88 - min ((i : ℚ) * 0.01) 0.1⟩
          | none => ⟨-1, 0⟩) := by
  have hmain := findPriorityMatchAux_spec hs ps 0 i p hp hprev hhit
  rw [findPriorityMatch, hmain]
  simp only [Nat.zero_add]

/-- C5 (witness): the amended walk evaluated on the counterexample headers. -/
theorem C5_witness :
    findPriorityMatch ["my_city".toList, "location".toList] LOCATION_PRIORITY =
      (match (["my_city".toList, "location".toList]).findIdx?
          (fun h => h = "city".toList) with
        | some j => ⟨j, 0.96 - min (((0 : Nat) : ℚ) * 0.01) 0.1⟩
        | none =>
          match (["my_city".toList, "location".toList]).findIdx?
              (fun h => containsSub h "city".toList) with
          | some j => ⟨j, 0.88 - min (((0 : Nat) : ℚ) * 0.01) 0.1⟩
          | none => ⟨-1, 0⟩) :=
  C5_amended_priority_walk ["my_city".toList, "location".toList] LOCATION_PRIORITY 0
    "city".toList (by decide) (fun k q hk => absurd hk (by omega)) (by decide)

/-- C8 (confirmed): with more than one data row, the selected row attains the
maximal non-blank cell count and is the first row in table order doing so
(`find?` returns the first match). -/
theorem C8_best_row (rows : List (List Cell)) (h : 1 < rows.length) :
    nonEmptyValueCount (getBestDataRow rows) = maxCount rows ∧
    rows.find? (fun r => nonEmptyValueCount r == maxCount rows) =
      some (getBestDataRow rows) := by
  have hne : rows ≠ [] := by
    intro he
    rw [he] at h
    simp at h
  obtain ⟨hd, tl, hsort, hmax, hfind⟩ := sortByCountDesc_head_spec rows hne
  have hlen : ¬rows.length = 1 := by omega
  rw [getBestDataRow, if_neg hlen, hsort]
  simp only [List.headD_cons]
  exact ⟨hmax, hfind⟩

/-- C8 (witness): the selection evaluated on a concrete two-row table. -/
theorem C8_witness :
    nonEmptyValueCount (getBestDataRow [[Cell.null], [Cell.str "x".toList]]) =
      maxCount [[Cell.null], [Cell.str "x".toList]] ∧
    ([[Cell.null], [Cell.str "x".toList]]).find?
        (fun r => nonEmptyValueCount r == maxCount [[Cell.null], [Cell.str "x".toList]]) =
      some (getBestDataRow [[Cell.null], [Cell.str "x".toList]]) :=
  C8_best_row [[Cell.null], [Cell.str "x".toList]] (by decide)

/-- C10 (counterexample): the inline-arrow location value of
`"X -> abc-!!"` is the non-empty string `abc-`, which ends in a dash — so not
every non-empty extracted field value is free of trailing dashes. -/
theorem C10_counterexample :
    (extractMetadataFromContent noFuzzy (.str "X -> abc-!!".toList)).location =
      "abc-".toList ∧
    (extractMetadataFromContent noFuzzy
        (.str "X -> abc-!!".toList)).location.getLast? = some '-' := by
  constructor
  · decide
  · decide

/-- C10 (amended): `cleanValue` is idempotent, and every value it produces has
single plain internal spaces and no leading or trailing colon, dash or
whitespace; the exception forced by the counterexample is the inline-arrow
location value, which receives an additional trailing-symbol strip after
cleaning and can therefore end in a dash. -/
theorem C10_cleanValue_idem_shape (s : Str) :
    cleanValue (cleanValue s) = cleanValue s ∧ cleanShape (cleanValue s) = true :=
  ⟨cleanValue_idem s, cleanValue_shape s⟩

/-- C10 (witness): idempotence and shape at a concrete string. -/
theorem C10_witness :
    cleanValue (cleanValue " : a  b - ".toList) = cleanValue " : a  b - ".toList ∧
      cleanShape (cleanValue " : a  b - ".toList) = true :=
  C10_cleanValue_idem_shape " : a  b - ".toList

/-- C9 (confirmed): in both parser classes, `isValid` is precisely the
emptiness of the error list. -/
theorem C9_isValid_iff_no_errors (PE : EnhancedFileParser) (PF : FileParser)
    (file : JFile) :
    ((PE.validate file).isValid = true ↔ (PE.validate file).errors = []) ∧
    ((PF.validate file).isValid = true ↔ (PF.validate file).errors = []) :=
  ⟨List.isEmpty_iff, List.isEmpty_iff⟩

/-- C9 (witness): both equivalences at a concrete parser and file. -/
theorem C9_witness :
    ((mkEnhancedFileParser [] none).validate ⟨"a.csv".toList, [], 1, 0⟩).isValid = true ↔
      ((mkEnhancedFileParser [] none).validate ⟨"a.csv".toList, [], 1, 0⟩).errors = [] :=
  (C9_isValid_iff_no_errors (mkEnhancedFileParser [] none) (mkFileParser [] none)
    ⟨"a.csv".toList, [], 1, 0⟩).1

/-- Concrete format descriptor whose custom validator accepts everything. -/
def csvValidatorFormat : FileFormat :=
  ⟨"csv".toList, "text/csv".toList, some (fun _ => true)⟩

/-- Concrete `EnhancedFileParser` configured with only that descriptor. -/
def acceptAllParser : EnhancedFileParser := mkEnhancedFileParser [csvValidatorFormat] none

/-- Concrete file whose extension matches no configured descriptor. -/
def xyzFile : JFile := ⟨"data.xyz".toList, "text/plain".toList, 5, 0⟩

/-- C4 (counterexample): in `EnhancedFileParser.validate` a file whose custom
predicate returns `true` is still rejected when its extension matches no
configured descriptor. -/
theorem C4_counterexample :
    (match csvValidatorFormat.validator with | some v => v xyzFile | none => false) = true ∧
    (acceptAllParser.validate xyzFile).isValid = false ∧
    notSupportedMsg acceptAllParser.supportedFormats ∈
      (acceptAllParser.validate xyzFile).errors := by
  refine ⟨rfl, by decide, by decide⟩

/-- C4 (amended): `FileParser.validate` accepts a file's format exactly when
some descriptor matches on extension and MIME type together, or its custom
predicate returns true; `EnhancedFileParser.validate` additionally requires
the extension to match, the custom predicate substituting only for the MIME
check. -/
theorem C4_amended_acceptance (PF : FileParser) (PE : EnhancedFileParser)
    (file : JFile) :
    (notSupportedMsg PF.supportedFormats ∉ (PF.validate file).errors ↔
      ∃ fmt ∈ PF.supportedFormats,
        (lowerStr fmt.extension = lowerStr (getFileExtension file.name) ∧
          fmt.mimeType = file.type) ∨
          ∃ v, fmt.validator = some v ∧ v file = true) ∧
    (notSupportedMsg PE.supportedFormats ∉ (PE.validate file).errors ↔
      ∃ fmt ∈ PE.supportedFormats,
        lowerStr fmt.extension = lowerStr (getFileExtension file.name) ∧
          (fmt.mimeType = file.type ∨ ∃ v, fmt.validator = some v ∧ v file = true)) := by
  constructor
  · rw [validateF_errors, mem_notSupported_iff, Option.isNone_iff_eq_none]
    exact findFormatF_ne_none_iff PF file
  · rw [validateE_errors, mem_notSupported_iff, Option.isNone_iff_eq_none]
    exact findFormatE_ne_none_iff PE file

/-- C4 (witness): the two acceptance equivalences at a concrete parser pair
and file. -/
theorem C4_witness :
    (notSupportedMsg (mkFileParser [csvValidatorFormat] none).supportedFormats ∉
        ((mkFileParser [csvValidatorFormat] none).validate xyzFile).errors ↔
      ∃ fmt ∈ (mkFileParser [csvValidatorFormat] none).supportedFormats,
        (lowerStr fmt.extension = lowerStr (getFileExtension xyzFile.name) ∧
          fmt.mimeType = xyzFile.type) ∨
          ∃ v, fmt.validator = some v ∧ v xyzFile = true) ∧
    (notSupportedMsg acceptAllParser.supportedFormats ∉
        (acceptAllParser.validate xyzFile).errors ↔
      ∃ fmt ∈ acceptAllParser.supportedFormats,
        lowerStr fmt.extension = lowerStr (getFileExtension xyzFile.name) ∧
          (fmt.mimeType = xyzFile.type ∨ ∃ v, fmt.validator = some v ∧ v xyzFile = true)) :=
  C4_amended_acceptance (mkFileParser [csvValidatorFormat] none) acceptAllParser xyzFile

/-- C7 (confirmed): an oversized file of an unsupported format accumulates
exactly two errors — the size message (containing "size") followed by the
format message (containing "not supported"). -/
theorem C7_error_accumulation (P : EnhancedFileParser) (file : JFile)
    (hsize : P.maxFileSize < file.size)
    (hfmt : findFormatE P file = none) :
    (P.validate file).errors =
      [sizeErrorMsg P.maxFileSize file.size, notSupportedMsg P.supportedFormats] ∧
    containsSub (sizeErrorMsg P.maxFileSize file.size) "size".toList = true ∧
    containsSub (notSupportedMsg P.supportedFormats) "not supported".toList = true := by
  refine ⟨?_, ?_, ?_⟩
  · have hz : ¬file.size = 0 := by omega
    rw [validateE_errors, if_pos hsize, if_neg hz, if_pos (by simp [hfmt])]
    rfl
  · rw [sizeErrorMsg]
    exact containsSub_append_left _ (containsSub_append_left _
      (containsSub_append_left _ (containsSub_append_left _ (by decide))))
  · rw [notSupportedMsg]
    exact containsSub_append_left _ (by decide)

/-- Concrete oversized file of unknown format (11 MiB, default limit 10 MiB). -/
def bigFile : JFile := ⟨"a.zzz".toList, [], 11534336, 0⟩

/-- C7 (witness): the accumulated error pair at a concrete oversized,
unsupported file. -/
theorem C7_witness :
    (acceptAllParser.validate bigFile).errors =
      [sizeErrorMsg acceptAllParser.maxFileSize bigFile.size,
        notSupportedMsg acceptAllParser.supportedFormats] ∧
    containsSub (sizeErrorMsg acceptAllParser.maxFileSize bigFile.size)
      "size".toList = true ∧
    containsSub (notSupportedMsg acceptAllParser.supportedFormats)
      "not supported".toList = true :=
  C7_error_accumulation acceptAllParser bigFile (by decide) rfl

/-- C1 (confirmed): `parse` always returns a tagged result — a success, or a
failure whose code is `VALIDATION_ERROR` or `PARSE_ERROR`; every extractor
exception is converted, never propagated. -/
theorem C1_parse_never_throws (P : EnhancedFileParser) (file : JFile)
    (env : ParseEnv) :
    match (P.parse file env).1 with
    | .success _ => True
    | .failure code _ =>
        code = "VALIDATION_ERROR".toList ∨ code = "PARSE_ERROR".toList := by
  rw [EnhancedFileParser.parse]
  by_cases hval : (P.validate file).isValid = false
  · rw [if_pos hval]
    exact Or.inl rfl
  · rw [if_neg hval]
    dsimp only
    cases hd : (dispatchExtractor (lowerStr (getFileExtension file.name)) env).1 with
    | ok t => trivial
    | error e => exact Or.inr rfl

/-- C3 (amended): every `Success` outcome satisfies
`rowCount == rows.length`; every row's length equals `columnCount` for every
source type except spreadsheets, whose rows keep the worksheet's own per-row
cell counts. -/
theorem C3_amended_envelope (P : EnhancedFileParser) (file : JFile)
    (env : ParseEnv) (content : FileContent) (n : Nat)
    (h : P.parse file env = (.success content, n)) :
    content.raw.rowCount = content.raw.rows.length ∧
      (content.raw.sourceType ≠ some "excel".toList →
        ∀ row ∈ content.raw.rows, row.length = content.raw.columnCount) := by
  rw [EnhancedFileParser.parse] at h
  by_cases hval : (P.validate file).isValid = false
  · rw [if_pos hval] at h
    simp at h
  · rw [if_neg hval] at h
    dsimp only at h
    cases hd : (dispatchExtractor (lowerStr (getFileExtension file.name)) env).1 with
    | error e =>
      rw [hd] at h
      simp at h
    | ok t =>
      rw [hd] at h
      rw [Prod.mk.injEq] at h
      obtain ⟨h1, _⟩ := h
      cases h1
      exact dispatchExtractor_inv hd

/-- An environment in which every library call fails (no oracle output). -/
def errEnv : ParseEnv :=
  { csv := .error []
    excel := .error none
    hasDom := false
    pdfPages := .error none
    ocrWorker := .error none
    ocrText := .error none
    jsonValue := .error none
    textContent := .error none }

/-- Concrete spreadsheet descriptor, parser, file, and a ragged worksheet:
the header row has two cells, the data row only one. -/
def xlsxFormat : FileFormat := ⟨"xlsx".toList, "application/xlsx".toList, none⟩

/-- Parser configured for the spreadsheet descriptor. -/
def xlsxParser : EnhancedFileParser := mkEnhancedFileParser [xlsxFormat] none

/-- A small spreadsheet file. -/
def xlsxFile : JFile := ⟨"t.xlsx".toList, "application/xlsx".toList, 5, 0⟩

/-- Environment whose SheetJS output is the ragged worksheet. -/
def raggedExcelEnv : ParseEnv :=
  { errEnv with
      excel := .ok [[.str "a".toList, .str "b".toList], [.str "x".toList]] }

/-- The success envelope produced for the ragged worksheet. -/
def raggedContent : FileContent :=
  ⟨⟨["a".toList, "b".toList], [[Cell.str "x".toList]], 1, 2, some "excel".toList, none⟩,
    ⟨"t.xlsx".toList, 5, "application/xlsx".toList, 0⟩⟩

/-- C3 (counterexample): a ragged spreadsheet yields a `Success` outcome with
`columnCount = 2` but a data row of length 1. -/
theorem C3_counterexample :
    xlsxParser.parse xlsxFile raggedExcelEnv = (.success raggedContent, 0) ∧
    raggedContent.raw.columnCount = 2 ∧
    ∃ row ∈ raggedContent.raw.rows, row.length ≠ raggedContent.raw.columnCount := by
  refine ⟨by decide, rfl, ⟨[Cell.str "x".toList], by decide, by decide⟩⟩

/-- C3 (witness): the amended envelope invariant discharged at the concrete
spreadsheet parse. -/
theorem C3_witness :
    raggedContent.raw.rowCount = raggedContent.raw.rows.length ∧
      (raggedContent.raw.sourceType ≠ some "excel".toList →
        ∀ row ∈ raggedContent.raw.rows, row.length = raggedContent.raw.columnCount) :=
  C3_amended_envelope xlsxParser xlsxFile raggedExcelEnv raggedContent 0 (by decide)

/-- C6 (confirmed): parsing a file with extension `.pdf` performs zero OCR
worker creations on every path, and when validation passes, the DOM is
available and the whole extracted native text layer is whitespace-only, the
outcome is `Failure(PARSE_ERROR)` with the no-readable-text message. -/
theorem C6_pdf_never_ocr (P : EnhancedFileParser) (file : JFile) (env : ParseEnv)
    (hext : lowerStr (getFileExtension file.name) = "pdf".toList) :
    (P.parse file env).2 = 0 ∧
    (∀ pages, (P.validate file).isValid = true → env.hasDom = true →
      env.pdfPages = .ok pages →
      (∀ page ∈ pages, ∀ it ∈ page, ∀ c ∈ it.getD [], isWs c = true) →
      (P.parse file env).1 =
        .failure "PARSE_ERROR".toList "No readable native text found in PDF".toList) := by
  constructor
  · rw [EnhancedFileParser.parse]
    by_cases hval : (P.validate file).isValid = false
    · rw [if_pos hval]
    · rw [if_neg hval]
      dsimp only
      rw [hext, dispatchExtractor_pdf]
      cases parsePDF env <;> rfl
  · intro pages hval hdom hpg hws
    rw [EnhancedFileParser.parse, if_neg (by simp [hval])]
    dsimp only
    rw [hext, dispatchExtractor_pdf, parsePDF_allWs hdom hpg hws]
    rfl

/-- Concrete PDF descriptor, parser, file and a whitespace-only text layer. -/
def pdfFormat : FileFormat := ⟨"pdf".toList, "application/pdf".toList, none⟩

/-- Parser configured for the PDF descriptor. -/
def pdfParser : EnhancedFileParser := mkEnhancedFileParser [pdfFormat] none

/-- A small PDF file. -/
def pdfFile : JFile := ⟨"doc.pdf".toList, "application/pdf".toList, 10, 0⟩

/-- Environment whose PDF text items are whitespace-only or missing. -/
def wsPdfEnv : ParseEnv :=
  { errEnv with
      hasDom := true
      pdfPages := .ok [[some " \t".toList, none], []] }

/-- C6 (witness): zero OCR invocations and the PARSE_ERROR outcome at the
concrete whitespace-only PDF. -/
theorem C6_witness :
    (pdfParser.parse pdfFile wsPdfEnv).2 = 0 ∧
    (pdfParser.parse pdfFile wsPdfEnv).1 =
      .failure "PARSE_ERROR".toList "No readable native text found in PDF".toList :=
  ⟨(C6_pdf_never_ocr pdfParser pdfFile wsPdfEnv rfl).1,
    (C6_pdf_never_ocr pdfParser pdfFile wsPdfEnv rfl).2 [[some " \t".toList, none], []]
      (by decide) rfl rfl (by decide)⟩

end Nomadly
